import Mathlib

/-!
# Crawl and ingest core of the mycil-network search engine

A shallow embedding of `crawler/crawler.go` and `ingest/ingest.go`.

Go strings are modelled as lists of Unicode scalar values (`GoString`), that is,
as valid UTF-8 text; `goLen` is Go's `len`, the length in bytes.  Library code
that is not part of the repository (Unicode tables above ASCII, `net/url`,
the `inflection` package, the `util` package) enters through the record `Env`,
so every theorem holds for every behaviour of those libraries.
-/

namespace Lieu

/-! ## Strings -/

abbrev GoString := List Char

/-- Go `len(s)`: the number of bytes of the UTF-8 encoding. -/
def goLen (s : GoString) : Nat := (s.map Char.utf8Size).sum

/-- Go `strings.HasPrefix`. -/
def hasPrefix (s pre : GoString) : Bool := pre.isPrefixOf s

/-- Go `strings.HasSuffix`. -/
def hasSuffix (s suf : GoString) : Bool := suf.isSuffixOf s

/-- Go `strings.TrimSuffix`: drops `suf` once when `s` ends with it. -/
def trimSuffix (s suf : GoString) : GoString :=
  if hasSuffix s suf then s.take (s.length - suf.length) else s

/-- Go `strings.TrimPrefix`: drops `pre` once when `s` starts with it. -/
def trimPrefix (s pre : GoString) : GoString :=
  if hasPrefix s pre then s.drop pre.length else s

/-- Go `strings.Contains`: `sub` occurs in `s` as a contiguous substring. -/
def strContains : GoString → GoString → Bool
  | [], sub => sub.isEmpty
  | c :: cs, sub => sub.isPrefixOf (c :: cs) || strContains cs sub

/-- Go `strings.Split(s, sep)` for a separator of one ASCII character. -/
def splitChar (sep : Char) : GoString → List GoString
  | [] => [[]]
  | c :: cs =>
    if c = sep then [] :: splitChar sep cs
    else
      match splitChar sep cs with
      | [] => [[c]]
      | w :: ws => (c :: w) :: ws

/-- Go `strings.Join(parts, sep)`. -/
def strJoin (sep : GoString) : List GoString → GoString
  | [] => []
  | [w] => w
  | w :: w2 :: ws => w ++ sep ++ strJoin sep (w2 :: ws)

/-- Go `unicode.IsSpace`: the Latin-1 cases spelled out in the library and the
`White_Space` property above Latin-1. -/
def isSpace (c : Char) : Bool :=
  let n := c.toNat
  (9 ≤ n && n ≤ 13) || n == 0x20 || n == 0x85 || n == 0xA0 || n == 0x1680 ||
  (0x2000 ≤ n && n ≤ 0x200A) || n == 0x2028 || n == 0x2029 || n == 0x202F ||
  n == 0x205F || n == 0x3000

/-- Go `strings.TrimSpace`. -/
def trimSpace (s : GoString) : GoString :=
  (s.dropWhile isSpace).rdropWhile isSpace

/-- Go `strings.Fields`: the maximal runs of non-space characters. -/
def fieldsAux : GoString → GoString → List GoString
  | [], cur => if cur.isEmpty then [] else [cur.reverse]
  | c :: cs, cur =>
    if isSpace c then
      (if cur.isEmpty then fieldsAux cs [] else cur.reverse :: fieldsAux cs [])
    else fieldsAux cs (c :: cur)

def fields (s : GoString) : List GoString := fieldsAux s []

/-- Go `strings.ReplaceAll(s, old, new)` for `old` of one character. -/
def replaceChar (old : Char) (new : GoString) (s : GoString) : GoString :=
  s.flatMap (fun c => if c = old then new else [c])

/-! ## crawler.go -/

/-- The `find` helper: membership in a list of strings. -/
def find (list : List GoString) (query : GoString) : Bool :=
  list.any (fun item => item == query)

/-- `getLink`: cut at the first `#`, then at the first `?`, trim white space,
strip one trailing `/`. -/
def getLink (target : GoString) : GoString :=
  let target := if strContains target ['#'] then (splitChar '#' target).headD [] else target
  let target := if strContains target ['?'] then (splitChar '?' target).headD [] else target
  let target := trimSpace target
  trimSuffix target ['/']

/-- The last character of a string is neither `/` nor white space (true of the
empty string). -/
def endsClean (s : GoString) : Bool :=
  match s.getLast? with
  | none => true
  | some c => c != '/' && !isSpace c

/-! ## Library behaviour taken as a parameter -/

/-- What the code reads from a parsed `*url.URL`: `u.Hostname()` and `u.Path`. -/
structure ParsedURL where
  hostname : GoString
  path : GoString
deriving DecidableEq, Repr

/-- Behaviour of code outside the two source files.
* `urlParse`: `url.Parse`, `none` when it returns an error;
* `lowerTable`: `unicode.ToLower` on runes above ASCII;
* `punctTable`, `symbolTable`, `otherTable`: membership of a rune above ASCII in
  the Unicode categories P, S and C;
* `singular`: `inflection.Singular`;
* `utilContains`: `util.Contains`. -/
structure Env where
  urlParse : GoString → Option ParsedURL
  lowerTable : Char → Char
  punctTable : Char → Bool
  symbolTable : Char → Bool
  otherTable : Char → Bool
  singular : GoString → GoString
  utilContains : List GoString → GoString → Bool

/-! ## crawler.go: webring members, pathsites, depths -/

/-- `WebringLink`: a member URL with its precrawl depth. -/
structure WebringLink where
  URL : GoString
  Depth : Int
deriving DecidableEq, Repr

/-- A Go `map[string]V` as an association list with distinct keys;
`mapSet m k v` is `m[k] = v`. -/
def mapSet {V : Type} : List (GoString × V) → GoString → V → List (GoString × V)
  | [], k, v => [(k, v)]
  | (k', v') :: rest, k, v =>
    if k' = k then (k, v) :: rest else (k', v') :: mapSet rest k v

/-- Lookup `m[k]` with the "comma ok" result. -/
def mapGet? {V : Type} : List (GoString × V) → GoString → Option V
  | [], _ => none
  | (k', v') :: rest, k => if k' = k then some v' else mapGet? rest k

/-- `getDomains`: the hostnames of all members and the URLs of the pathsites. -/
def getDomains (E : Env) (links : List WebringLink) : List GoString × List GoString :=
  links.foldl (fun (acc : List GoString × List GoString) link =>
    match E.urlParse link.URL with
    | none => acc
    | some u =>
      if goLen u.path > 0 && (u.path != "/".toList || u.path != "index.html".toList) then
        (acc.1 ++ [u.hostname], acc.2 ++ [link.URL])
      else (acc.1 ++ [u.hostname], acc.2)) ([], [])

/-- The map `precrawlDepths` that `Crawl` builds from the member list. -/
def precrawlDepths (E : Env) (links : List WebringLink) : List (GoString × Int) :=
  links.foldl (fun m link =>
    match E.urlParse link.URL with
    | none => m
    | some u => mapSet m u.hostname link.Depth) []

/-- The read `precrawlDepths[domain]`: a missing key reads as `0`. -/
def depthOf (m : List (GoString × Int)) (domain : GoString) : Int :=
  (mapGet? m domain).getD 0

/-- The loop of the link handler that picks `pathsite`: the first pathsite
that contains the outgoing hostname as a substring, `""` when there is none. -/
def findPathsite : List GoString → GoString → GoString
  | [], _ => []
  | s :: rest, outgoingDomain =>
    if strContains s outgoingDomain then s else findPathsite rest outgoingDomain

/-- The rule-based crawling step of the link handler: whether `q.AddURL(link)`
is called for the resolved `link` with hostname `outgoingDomain`. -/
def enqueues (pathsites : List GoString) (outgoingDomain link : GoString) : Bool :=
  let pathsite := findPathsite pathsites outgoingDomain
  if pathsite ≠ [] then hasPrefix link pathsite else true

/-- The link handler from the resolved link onward: a link that does not parse
is dropped, otherwise the rule-based crawling step decides. -/
def linkHandlerEnqueues (E : Env) (pathsites : List GoString) (link : GoString) : Bool :=
  match E.urlParse link with
  | none => false
  | some u => enqueues pathsites u.hostname link

/-- The subtree of a pathsite member in the words of the specification: the
member URL itself or a URL that continues it after a `/`. -/
def inSubtree (member link : GoString) : Bool :=
  link == member || hasPrefix link (member ++ ['/'])

/-- The members of the webring list whose URL parses with hostname `h`, in
list order. -/
def membersOn (E : Env) (links : List WebringLink) (h : GoString) : List WebringLink :=
  links.filter (fun link =>
    match E.urlParse link.URL with
    | some u => u.hostname == h
    | none => false)


/-! ## crawler.go: Precrawl -/

/-- `Mushroom`: a document of the link graph. -/
structure Mushroom where
  Spores : List GoString
  Hyphae : List GoString
  ID : GoString
  Location : GoString
deriving DecidableEq, Repr

/-- Outcome of `http.Get` followed by the JSON decoder: the request fails, or
it answers with a status and a body that decodes (`some`) or does not. -/
inductive Response where
  | failed : Response
  | answer (status : Nat) (doc : Option Mushroom) : Response
deriving DecidableEq, Repr

/-- The variables of `Precrawl`, with the lines printed so far (`link | depth`)
and the log of documents requested with `http.Get`. -/
structure PrecrawlState where
  alreadyCrawled : List GoString
  seenDomains : List GoString
  exploredHyphae : List GoString
  printed : List (GoString × Nat)
  fetched : List GoString
deriving DecidableEq, Repr

/-- The closure `normalizeDomain`: hostname without one leading `www.`. -/
def normalizeDomain (E : Env) (link : GoString) : GoString :=
  match E.urlParse link with
  | none => []
  | some u =>
    if hasPrefix u.hostname "www.".toList then trimPrefix u.hostname "www.".toList
    else u.hostname

/-- One iteration of the loop over Spores. -/
def sporeStep (E : Env) (BANNED : List GoString) (currentDepth : Nat)
    (st : PrecrawlState) (item : GoString) : PrecrawlState :=
  let link := getLink item
  match E.urlParse link with
  | none => st
  | some u =>
    let domain := u.hostname
    let normalizedDomain := normalizeDomain E link
    if find BANNED domain || find st.alreadyCrawled link
        || find st.seenDomains normalizedDomain then st
    else
      { st with
        printed := st.printed ++ [(link, currentDepth)]
        alreadyCrawled := st.alreadyCrawled ++ [link]
        seenDomains := st.seenDomains ++ [normalizedDomain] }

/-- One iteration of the loop that collects Hyphae for the next level. -/
def collectStep (exploredHyphae : List GoString) (nextLevelHyphae : List GoString)
    (item : GoString) : List GoString :=
  let link := getLink item
  if !find exploredHyphae link && !find nextLevelHyphae link then nextLevelHyphae ++ [link]
  else nextLevelHyphae

/-- One iteration of the loop over the Hyphae of the current level. -/
def hyphaStep (E : Env) (BANNED : List GoString) (fetch : GoString → Response)
    (currentDepth : Nat) (acc : PrecrawlState × List GoString) (hyphaeLink : GoString) :
    PrecrawlState × List GoString :=
  if find acc.1.exploredHyphae hyphaeLink then acc
  else
    let st := { acc.1 with
      fetched := acc.1.fetched ++ [hyphaeLink]
      exploredHyphae := acc.1.exploredHyphae ++ [hyphaeLink] }
    match fetch hyphaeLink with
    | .failed => (st, acc.2)
    | .answer _ none => (st, acc.2)
    | .answer _ (some currentMushroom) =>
      let st2 := currentMushroom.Spores.foldl (sporeStep E BANNED currentDepth) st
      (st2, currentMushroom.Hyphae.foldl (collectStep st2.exploredHyphae) acc.2)

/-- The loop `for len(currentLevelHyphae) > 0`, run for at most `fuel` levels. -/
def precrawlLoop (E : Env) (BANNED : List GoString) (fetch : GoString → Response) :
    Nat → Nat → PrecrawlState → List GoString → PrecrawlState
  | 0, _, st, _ => st
  | fuel + 1, currentDepth, st, currentLevelHyphae =>
    if currentLevelHyphae.isEmpty then st
    else
      let acc := currentLevelHyphae.foldl (hyphaStep E BANNED fetch (currentDepth + 1)) (st, [])
      precrawlLoop E BANNED fetch fuel (currentDepth + 1) acc.1 acc.2

/-- `Precrawl` on the bootstrap document at `url`; `none` is `log.Fatal`
(request failed or status other than 200).  A bootstrap body that does not
decode ends the run with nothing printed. -/
def Precrawl (E : Env) (BANNED : List GoString) (fetch : GoString → Response)
    (url : GoString) (fuel : Nat) : Option PrecrawlState :=
  let st0 : PrecrawlState := ⟨[], [], [], [], [url]⟩
  match fetch url with
  | .failed => none
  | .answer status doc =>
    if status ≠ 200 then none
    else
      match doc with
      | none => some st0
      | some mushroom =>
        let st1 := mushroom.Spores.foldl (sporeStep E BANNED 1) st0
        let currentLevelHyphae := mushroom.Hyphae.foldl
          (fun cur item =>
            let link := getLink item
            if !find st1.exploredHyphae link then cur ++ [link] else cur) []
        some (precrawlLoop E BANNED fetch fuel 1 st1 currentLevelHyphae)


/-- The `link | depth` lines a `Precrawl` run of at most `fuel` levels prints
(none when the run ends in `log.Fatal`). -/
def precrawlOutput (E : Env) (BANNED : List GoString) (fetch : GoString → Response)
    (url : GoString) (fuel : Nat) : List (GoString × Nat) :=
  match Precrawl E BANNED fetch url fuel with
  | none => []
  | some st => st.printed

/-- The invariant of `Precrawl` behind the domain dedup: the printed links have
pairwise distinct normalized hostnames, all of them in `seenDomains`. -/
def DedupInv (E : Env) (st : PrecrawlState) : Prop :=
  (st.printed.map (fun line => normalizeDomain E line.1)).Nodup ∧
  ∀ line ∈ st.printed, normalizeDomain E line.1 ∈ st.seenDomains


/-- The documents a `Precrawl` run of at most `fuel` levels requests with
`http.Get`, in order, the bootstrap document first. -/
def precrawlFetched (E : Env) (BANNED : List GoString) (fetch : GoString → Response)
    (url : GoString) (fuel : Nat) : List GoString :=
  match Precrawl E BANNED fetch url fuel with
  | none => [url]
  | some st => st.fetched

/-! ## crawler.go: cleanText -/

/-- `regexp.ReplaceAllString(s, " ")` for a pattern `\p{..}+`: every maximal
run of characters of the class becomes one space. -/
def collapseClass (p : Char → Bool) : GoString → GoString
  | [] => []
  | c :: cs =>
    if p c then
      match cs with
      | [] => [' ']
      | d :: _ => if p d then collapseClass p cs else ' ' :: collapseClass p cs
    else c :: collapseClass p cs


/-! ## Library functions used by ingest.go -/

/-- Go `unicode.ToLower`: ASCII letters are lowered directly, runes above ASCII
go through the case table. -/
def lowerRune (E : Env) (c : Char) : Char :=
  if c.toNat ≤ 127 then c.toLower else E.lowerTable c

/-- Go `strings.ToLower`. -/
def toLower (E : Env) (s : GoString) : GoString := s.map (lowerRune E)

/-- Unicode category P (punctuation); ASCII members listed, the rest by table. -/
def isPunct (E : Env) (c : Char) : Bool :=
  if c.toNat ≤ 127 then "!\"#%&'()*,-./:;?@[\\]_\x7b\x7d".toList.contains c
  else E.punctTable c

/-- Unicode category S (symbols); ASCII members listed, the rest by table. -/
def isSymbol (E : Env) (c : Char) : Bool :=
  if c.toNat ≤ 127 then "$+<=>^`|~".toList.contains c else E.symbolTable c

/-- Unicode category C (control, format, ...); ASCII members are the control
characters, the rest by table. -/
def isOther (E : Env) (c : Char) : Bool :=
  if c.toNat ≤ 127 then decide (c.toNat < 32) || c.toNat == 127 else E.otherTable c

/-- Unicode category Z (separators): Zs, Zl and Zp. -/
def isSeparator (c : Char) : Bool :=
  let n := c.toNat
  n == 0x20 || n == 0xA0 || n == 0x1680 || (0x2000 ≤ n && n ≤ 0x200A) ||
  n == 0x2028 || n == 0x2029 || n == 0x202F || n == 0x205F || n == 0x3000

/-- `regexp.ReplaceAllString(s, " ")` for a pattern that matches one character
of a class. -/
def replaceClass (p : Char → Bool) (s : GoString) : GoString :=
  s.map (fun c => if p c then ' ' else c)

/-- Go `strings.ReplaceAll(s, ", ", ",")`. -/
def replaceCommaSpace : GoString → GoString
  | [] => []
  | c :: cs =>
    match cs with
    | [] => [c]
    | d :: ds =>
      if c = ',' ∧ d = ' ' then ',' :: replaceCommaSpace ds
      else c :: replaceCommaSpace (d :: ds)

/-- Digits of `strconv.Atoi`, most significant first, added to `acc`. -/
def parseDigits : GoString → Nat → Option Nat
  | [], acc => some acc
  | c :: cs, acc =>
    if 48 ≤ c.toNat ∧ c.toNat ≤ 57 then parseDigits cs (acc * 10 + (c.toNat - 48))
    else none

/-- Go `strconv.Atoi` for the 64-bit `int`: an optional sign, then one or more
decimal digits; `none` is a syntax or range error. -/
def atoi (s : GoString) : Option Int :=
  match s with
  | [] => none
  | c :: rest =>
    let ds := if c = '-' ∨ c = '+' then rest else c :: rest
    if ds.isEmpty then none
    else
      match parseDigits ds 0 with
      | none => none
      | some n =>
        if c = '-' then (if n ≤ 2 ^ 63 then some (-(n : Int)) else none)
        else (if n < 2 ^ 63 then some (n : Int) else none)

/-- Decimal digits of `n`, most significant first (`fuel` bounds the number
of digits). -/
def natDigits : Nat → Nat → GoString
  | 0, _ => []
  | fuel + 1, n =>
    if n < 10 then [Nat.digitChar n]
    else natDigits fuel (n / 10) ++ [Nat.digitChar (n % 10)]

/-- How `fmt.Println` prints an `int`. -/
def fmtInt (d : Int) : GoString :=
  if d < 0 then '-' :: natDigits (d.natAbs + 1) d.natAbs
  else natDigits (d.natAbs + 1) d.natAbs

/-- How the crawler prints a record: `fmt.Println(token, payload, url, depth)`
puts one space between the operands. -/
def printRecord (token payload url : GoString) (depth : Int) : GoString :=
  token ++ [' '] ++ payload ++ [' '] ++ url ++ [' '] ++ fmtInt depth

/-! ## ingest.go -/

/-- `partitionSentence`: punctuation, separators, invisible characters,
symbols, `|` and `/` become spaces, then the text is split into fields. -/
def partitionSentence (E : Env) (s : GoString) : List GoString :=
  let s := replaceClass (isPunct E) s
  let s := replaceClass isSeparator s
  let s := replaceClass (isOther E) s
  let s := replaceClass (isSymbol E) s
  let s := replaceChar '|' [' '] s
  let s := replaceChar '/' [' '] s
  fields s

/-- `filterCommonWords`: the loop that skips words of length 1 and words of
the word list and appends the singular form of the others. -/
def filterCommonWords (E : Env) (words wordlist : List GoString) : List GoString :=
  words.foldl (fun filtered word =>
    if goLen word = 1 ∨ find wordlist word = true then filtered
    else filtered ++ [E.singular word]) []

/-- `performAboutHeuristic`, with `disallowed` the list read from the
heuristics file. -/
def performAboutHeuristic (E : Env) (disallowed : List GoString) (phrase : GoString) : Bool :=
  let ok := !E.utilContains disallowed phrase
  ok && decide (goLen phrase > 20)

/-- `types.PageData`, with the fields the code uses. -/
structure PageData where
  URL : GoString
  Depth : Int
  Title : GoString
  About : GoString
  AboutSource : GoString
  Lang : GoString
deriving DecidableEq, Repr

/-- `types.SearchFragment`. -/
structure SearchFragment where
  Word : GoString
  URL : GoString
  Score : Int
deriving DecidableEq, Repr

/-- The fields the loop of `Ingest` reads from one line. -/
structure Record where
  token : GoString
  depth : Int
  pageurl : GoString
  rawdata : GoString
deriving DecidableEq, Repr

/-- The line parser at the head of the loop body of `Ingest`; `none` is
`continue` (fewer than 3 fields, or a page URL that does not start with
`http`). -/
def parseLine (line : GoString) : Option Record :=
  let parts := splitChar ' ' line
  if parts.length < 3 then none
  else
    let token := parts.headD []
    let depth := match atoi (parts.getD (parts.length - 1) []) with
      | some d => d
      | none => 0
    let pageurl := trimSuffix (parts.getD (parts.length - 2) []) ['/']
    let rawdata := strJoin [' '] ((parts.take (parts.length - 2)).drop 1)
    if !hasPrefix pageurl "http".toList then none
    else some ⟨token, depth, pageurl, rawdata⟩

/-- `extractPathSegments`; `none` when `url.Parse` fails and `util.Check`
ends the run. -/
def extractPathSegments (E : Env) (pageurl : GoString) : Option (List GoString) :=
  match E.urlParse pageurl with
  | none => none
  | some u =>
    if goLen u.path = 0 then some []
    else
      let s := trimSuffix u.path ".html".toList
      let s := trimSuffix s ".htm".toList
      let s := replaceChar '/' [' '] s
      let s := replaceChar '-' [' '] s
      let s := replaceChar '_' [' '] s
      let s := toLower E s
      some (fields s)

/-- The lists `Ingest` reads from the configured files: the stopword list and
the about-heuristics list. -/
structure IngestConfig where
  wordlist : List GoString
  heuristics : List GoString

/-- One call of `ingestBatch`. -/
structure BatchCall where
  batch : List SearchFragment
  pageMap : List (GoString × PageData)
  links : List GoString
deriving DecidableEq, Repr

/-- The variables of the loop of `Ingest`, the calls of `ingestBatch` made so
far, and whether `util.Check` has ended the run. -/
structure IngestState where
  pages : List (GoString × PageData)
  count : Nat
  batch : List SearchFragment
  externalLinks : List GoString
  flushed : List BatchCall
  aborted : Bool
deriving DecidableEq, Repr

/-- The `switch token` of `Ingest`: the updated page, the words to filter, the
score and the external links to append; `none` is the `default: continue`. -/
def switchToken (E : Env) (cfg : IngestConfig) (token rawdata payload : GoString)
    (page : PageData) : Option (PageData × List GoString × Int × List GoString) :=
  if token = "title".toList then
    let page := if goLen page.About = 0 then
      { page with About := rawdata, AboutSource := token } else page
    some ({ page with Title := rawdata }, partitionSentence E payload, 5, [])
  else if token = "h1".toList then
    let page := if goLen page.About = 0 then
      { page with About := rawdata, AboutSource := token } else page
    some (page, partitionSentence E payload, 15, [])
  else if token = "h2".toList then some (page, partitionSentence E payload, 15, [])
  else if token = "h3".toList then some (page, partitionSentence E payload, 15, [])
  else if token = "desc".toList then
    let page :=
      if goLen page.About < 30 ∧ goLen rawdata < 100 ∧ goLen rawdata > goLen page.About then
        { page with About := rawdata, AboutSource := token }
      else page
    some (page, partitionSentence E payload, 1, [])
  else if token = "og-desc".toList then
    some ({ page with About := rawdata, AboutSource := token }, partitionSentence E payload, 1, [])
  else if token = "para".toList then
    let page :=
      if page.AboutSource ≠ "og-desc".toList ∨ goLen rawdata * 10 > goLen page.About * 7 then
        (if performAboutHeuristic E cfg.heuristics payload then
          { page with About := rawdata, AboutSource := token }
         else page)
      else page
    some (page, partitionSentence E payload, 1, [])
  else if token = "lang".toList then some ({ page with Lang := rawdata }, [], 1, [])
  else if token = "keywords".toList then
    some (page, splitChar ',' (replaceCommaSpace payload), 1, [])
  else if token = "non-webring-link".toList then some (page, [], 1, [rawdata])
  else none

/-- The page the loop body starts from: the stored one, or a fresh one with
the URL and depth of the record. -/
def currentPage (pages : List (GoString × PageData)) (r : Record) : PageData :=
  match mapGet? pages r.pageurl with
  | some data => data
  | none => ⟨r.pageurl, r.depth, [], [], [], []⟩

/-- The threshold flush at the end of the loop body (`batchsize` is 100). -/
def flushIfFull (st : IngestState) : IngestState :=
  if st.pages.length > 100 then
    { st with
      flushed := st.flushed ++ [⟨st.batch, st.pages, st.externalLinks⟩]
      externalLinks := []
      batch := []
      pages := [] }
  else st

/-- The loop body of `Ingest` after the line parser. -/
def processRecord (E : Env) (cfg : IngestConfig) (st : IngestState) (r : Record) :
    IngestState :=
  let payload := toLower E r.rawdata
  match switchToken E cfg r.token r.rawdata payload (currentPage st.pages r) with
  | none => st
  | some (page, processed, score, links) =>
    let processed := filterCommonWords E processed cfg.wordlist
    let st1 : IngestState :=
      { st with
        pages := mapSet st.pages r.pageurl page
        externalLinks := st.externalLinks ++ links
        count := st.count + processed.length
        batch := st.batch ++ processed.map (fun word => ⟨word, r.pageurl, score⟩) }
    if r.token = "title".toList then
      match extractPathSegments E (toLower E r.pageurl) with
      | none => { st1 with aborted := true }
      | some segs =>
        flushIfFull { st1 with batch := st1.batch ++ segs.map (fun word => ⟨word, r.pageurl, 2⟩) }
    else flushIfFull st1

/-- One iteration of the scanner loop of `Ingest`. -/
def ingestLine (E : Env) (cfg : IngestConfig) (st : IngestState) (line : GoString) :
    IngestState :=
  if st.aborted then st
  else
    match parseLine line with
    | none => st
    | some r => processRecord E cfg st r

/-- The state before the first line. -/
def ingestInit : IngestState := ⟨[], 0, [], [], [], false⟩

/-- The state after the scanner loop of `Ingest` over `lines`. -/
def ingestLoop (E : Env) (cfg : IngestConfig) (lines : List GoString) : IngestState :=
  lines.foldl (ingestLine E cfg) ingestInit

/-- The calls of `ingestBatch` from the scanner loop of `Ingest` on, in order,
when the scanner yields `lines`: the threshold flushes, then the flush after
the loop (which is not reached when `util.Check` ended the run in the loop). -/
def ingestCalls (E : Env) (cfg : IngestConfig) (lines : List GoString) : List BatchCall :=
  let st := ingestLoop E cfg lines
  if st.aborted then st.flushed
  else st.flushed ++ [⟨st.batch, st.pages, st.externalLinks⟩]

/-- The source file as `Ingest` reads it.  `hasNewline` says whether the file
has a newline at all: the first-line read `reader.ReadString('\n')` returns an
error exactly when it has none (an empty file, or a single line that is not
newline-terminated).  `lines` are the lines the scanner yields after the file
position is reset to the start.  The scanner yields a second line only after
the newline that ends the first one (`sound`). -/
structure SourceFile where
  hasNewline : Bool
  lines : List GoString
  sound : 2 ≤ lines.length → hasNewline = true

/-- `Ingest` on a source file: all the calls of `ingestBatch`, in order.  When
the first-line read returns an error, `util.Check` ends the run before the
scanner loop and `ingestBatch` is never called; otherwise the calls are those
of the scanner loop and of the flush after it. -/
def Ingest (E : Env) (cfg : IngestConfig) (src : SourceFile) : List BatchCall :=
  if src.hasNewline then ingestCalls E cfg src.lines
  else []

/-- Every fragment produced so far, in order: the batches already handed to
`ingestBatch` followed by the current buffer. -/
def allFragments (st : IngestState) : List SearchFragment :=
  st.flushed.flatMap (fun call => call.batch) ++ st.batch

/-- The words the tokenizer keeps of a payload, in the words of the
specification: the tokens of the lowercased payload that are neither
single-character nor in the stopword list, each in its singular form. -/
def specWords (E : Env) (wordlist : List GoString) (rawdata : GoString) : List GoString :=
  ((partitionSentence E (toLower E rawdata)).filter
    (fun word => !(decide (word.length = 1) || find wordlist word))).map E.singular

/-- The words `filterCommonWords` keeps of the tokens of a payload: those
that are neither one byte long nor in the stopword list, each in its singular
form. -/
def tokenWords (E : Env) (wordlist : List GoString) (rawdata : GoString) : List GoString :=
  ((partitionSentence E (toLower E rawdata)).filter
    (fun word => !(decide (goLen word = 1) || find wordlist word))).map E.singular

/-- The tokens whose payload goes through `partitionSentence`. -/
def textTokens : List GoString :=
  ["title".toList, "h1".toList, "h2".toList, "h3".toList, "desc".toList,
   "og-desc".toList, "para".toList]


/-- The tokens that have a case in the `switch` of `Ingest`. -/
def knownTokens : List GoString :=
  ["title".toList, "h1".toList, "h2".toList, "h3".toList, "desc".toList, "og-desc".toList,
   "para".toList, "lang".toList, "keywords".toList, "non-webring-link".toList]

/-- A well-formed record with a recognised token: the line passes the line
parser, its token has a case in the switch, and for a `title` record the page
URL is accepted by `url.Parse`. -/
def wellFormed (E : Env) (line : GoString) : Bool :=
  match parseLine line with
  | none => false
  | some r =>
    knownTokens.contains r.token &&
      (r.token != "title".toList || (extractPathSegments E (toLower E r.pageurl)).isSome)

/-- The canonical page URL of a line (empty when the line parser skips it). -/
def lineURL (line : GoString) : GoString :=
  match parseLine line with
  | none => []
  | some r => r.pageurl

/-- The records of each URL are contiguous: once the sequence leaves a URL it
does not come back to it. -/
def contiguous : List GoString → Bool
  | [] => true
  | x :: rest => !(rest.dropWhile (fun y => y == x)).contains x && contiguous rest

/-- The invariant behind the batch boundary.  `seen` is the set of URLs read
so far and `last` the URL of the last record: the page map holds at most 100
pages, all of them seen, and the number of flushes is tied to the number of
URLs seen. -/
def BatchInv (seen : Finset GoString) (last : GoString) (st : IngestState) : Prop :=
  st.aborted = false ∧
  (∀ k ∈ st.pages.map Prod.fst, k ∈ seen) ∧
  st.pages.length ≤ 100 ∧
  ((last ∈ seen ∧ last ∉ st.pages.map Prod.fst) → st.pages.length = 0) ∧
  100 * st.flushed.length + st.pages.length
      + (if last ∈ seen ∧ last ∉ st.pages.map Prod.fst then 1 else 0) ≤ seen.card ∧
  seen.card ≤ 101 * st.flushed.length + st.pages.length


/-- `cleanText`: trim, newlines to spaces, runs of separators (`\p{Z}+`) to one
space. -/
def cleanText (s : GoString) : GoString :=
  let s := trimSpace s
  let s := replaceChar '\n' [' '] s
  collapseClass isSeparator s

/-! ## ingest.go: ingestBatch -/

/-- A call to the store made by `ingestBatch`. -/
inductive StoreCall where
  | insertManyDomains (pages : List PageData) : StoreCall
  | insertManyPages (pages : List PageData) : StoreCall
  | insertManyWords (batch : List SearchFragment) : StoreCall
  | insertManyExternalLinks (links : List GoString) : StoreCall
deriving DecidableEq, Repr

/-- The loop `for i := 0; i < len(batch); i += 3000` of `ingestBatch`, from
index `i`, run for at most `fuel` iterations: the slices `batch[i:end_i]`
passed to `InsertManyWords`, in call order; `none` when the loop has not
ended within `fuel` iterations. -/
def wordBatches (batch : List SearchFragment) :
    Nat → Nat → Option (List (List SearchFragment))
  | 0, i => if i < batch.length then none else some []
  | fuel + 1, i =>
    if i < batch.length then
      let end_i := if i + 3000 > batch.length then batch.length else i + 3000
      match wordBatches batch fuel (i + 3000) with
      | none => none
      | some rest => some ((batch.take end_i).drop i :: rest)
    else some []

/-- `ingestBatch`: the calls to the store, in order (`none` when the word loop
has not ended within `len(batch)` iterations).  The pages are the values of
the page map. -/
def ingestBatch (batch : List SearchFragment) (pageMap : List (GoString × PageData))
    (links : List GoString) : Option (List StoreCall) :=
  let pages := pageMap.map Prod.snd
  match wordBatches batch batch.length 0 with
  | none => none
  | some slices =>
    some ([.insertManyDomains pages, .insertManyPages pages]
      ++ slices.map StoreCall.insertManyWords ++ [.insertManyExternalLinks links])


/-! ## ingest.go: the fragments of a record -/

/-- The fragments the loop body appends for one record, in order: one per
word kept by `filterCommonWords`, at the score of the token, then for a
`title` record the path segments of the page URL at score 2. -/
def recordFragments (E : Env) (cfg : IngestConfig) (r : Record) : List SearchFragment :=
  match switchToken E cfg r.token r.rawdata (toLower E r.rawdata)
      ⟨r.pageurl, r.depth, [], [], [], []⟩ with
  | none => []
  | some (_, processed, score, _) =>
    (filterCommonWords E processed cfg.wordlist).map (fun word => ⟨word, r.pageurl, score⟩)
      ++ (if r.token = "title".toList then
            ((extractPathSegments E (toLower E r.pageurl)).getD []).map
              (fun word => ⟨word, r.pageurl, 2⟩)
          else [])

/-- The fragments produced by the records of a stream, in stream order. -/
def producedFragments (E : Env) (cfg : IngestConfig) (lines : List GoString) :
    List SearchFragment :=
  lines.flatMap (fun line =>
    match parseLine line with
    | none => []
    | some r => recordFragments E cfg r)

/-- Every `title` record of the stream has a page URL that `url.Parse`
accepts, so that `util.Check` never ends the run. -/
def titlesParse (E : Env) (lines : List GoString) : Bool :=
  lines.all (fun line =>
    match parseLine line with
    | none => true
    | some r =>
      r.token != "title".toList || (extractPathSegments E (toLower E r.pageurl)).isSome)


/-! ## A reference environment for concrete runs -/

/-- The text after the first `://`. -/
def afterScheme : GoString → GoString
  | [] => []
  | c :: cs =>
    if (c :: cs).take 3 = "://".toList then cs.drop 2 else afterScheme cs

/-- Parsing of plain `scheme://host/path` URLs, on which it agrees with
`url.Parse`. -/
def plainParse (s : GoString) : Option ParsedURL :=
  let rest := afterScheme s
  some ⟨rest.takeWhile (fun c => c != '/'), rest.dropWhile (fun c => c != '/')⟩

/-- Removal of a final `s`, which is what `inflection.Singular` does on
regular plurals such as `cats` and `dogs`. -/
def plainSingular (w : GoString) : GoString := trimSuffix w ['s']

/-- An environment for ASCII text: plain URL parsing, no table entries above
ASCII, regular plurals, and exact membership as `util.Contains`. -/
def plainEnv : Env where
  urlParse := plainParse
  lowerTable := fun c => c
  punctTable := fun _ => false
  symbolTable := fun _ => false
  otherTable := fun _ => false
  singular := plainSingular
  utilContains := fun l q => l.contains q


/-- A hexadecimal digit. -/
def isHex (c : Char) : Bool :=
  (48 ≤ c.toNat && c.toNat ≤ 57) || (97 ≤ c.toNat && c.toNat ≤ 102) ||
  (65 ≤ c.toNat && c.toNat ≤ 70)

/-- A `%` that is not followed by two hexadecimal digits, which `url.Parse`
rejects as an invalid URL escape. -/
def hasBadEscape : GoString → Bool
  | [] => false
  | c :: cs =>
    (c == '%' && !(match cs with
      | a :: b :: _ => isHex a && isHex b
      | _ => false)) || hasBadEscape cs

/-- The plain environment with a URL parser that rejects invalid escapes. -/
def strictEnv : Env :=
  { plainEnv with
    urlParse := fun s => if hasBadEscape s then none else plainParse s }


/-! ## Sample streams -/

/-- The `i`-th sample page URL. -/
def sampleURL (i : Nat) : GoString :=
  "http://h/".toList ++ natDigits (i + 1) i ++ ['x']

/-- The line the crawler prints for the language of the `i`-th sample page. -/
def sampleLine (i : Nat) : GoString :=
  printRecord "lang".toList "en".toList (sampleURL i) 1

/-- One record for each of 250 distinct pages. -/
def stream250 : List GoString := (List.range 250).map sampleLine

/-- One record for each of 250 distinct pages, then a second record for the
first 53 of them. -/
def stream303 : List GoString := (List.range 250 ++ List.range 53).map sampleLine

/-- The source file whose lines are `stream250`, each newline-terminated. -/
def source250 : SourceFile := ⟨true, stream250, fun _ => rfl⟩

/-- The source file whose lines are `stream303`, each newline-terminated. -/
def source303 : SourceFile := ⟨true, stream303, fun _ => rfl⟩

/-- A source file of two newline-terminated records for a page whose URL has
the invalid escape `%zz`: an `h1` record, then a `title` record. -/
def escapeSource : SourceFile :=
  ⟨true, ["h1 hello http://a/%zz 1".toList, "title x http://a/%zz 1".toList], fun _ => rfl⟩

/-- A source file of two newline-terminated records for the page `http://a/b`:
a `title` record, then an `h1` record. -/
def titleSource : SourceFile :=
  ⟨true, ["title hello http://a/b 1".toList, "h1 Cats http://a/b 1".toList], fun _ => rfl⟩


/-! ## Theorems -/

/-! ### String helpers -/

theorem strContains_single (c : Char) (s : GoString) :
    strContains s [c] = true ↔ c ∈ s := by
  induction s with
  | nil => simp [strContains]
  | cons a s ih =>
    simp only [strContains, Bool.or_eq_true, ih, List.mem_cons]
    constructor
    · rintro (h | h)
      · left
        simp only [List.isPrefixOf, Bool.and_eq_true, beq_iff_eq] at h
        exact h.1
      · right; exact h
    · rintro (h | h)
      · left
        simp [List.isPrefixOf, h]
      · right; exact h

theorem splitChar_ne_nil (sep : Char) (s : GoString) : splitChar sep s ≠ [] := by
  induction s with
  | nil => simp [splitChar]
  | cons a s ih =>
    simp only [splitChar]
    split
    · simp
    · split <;> simp

theorem headD_splitChar (sep : Char) (s : GoString) :
    (splitChar sep s).headD [] = s.takeWhile (fun c => c != sep) := by
  induction s with
  | nil => simp [splitChar]
  | cons a s ih =>
    simp only [splitChar]
    by_cases h : a = sep
    · simp [h]
    · simp only [h, if_false]
      have hne : (a != sep) = true := by simpa using h
      rw [List.takeWhile_cons, hne]
      simp only [if_true]
      cases hs : splitChar sep s with
      | nil => exact absurd hs (splitChar_ne_nil sep s)
      | cons w ws =>
        rw [hs] at ih
        simp only [List.headD_cons] at ih ⊢
        rw [ih]

/-- Cutting at the first occurrence of `sep`, as `getLink` does for `#` and `?`. -/
theorem cut_eq_takeWhile (sep : Char) (s : GoString) :
    (if strContains s [sep] then (splitChar sep s).headD [] else s)
      = s.takeWhile (fun c => c != sep) := by
  by_cases h : sep ∈ s
  · rw [if_pos ((strContains_single sep s).2 h), headD_splitChar]
  · have h2 : ¬ (strContains s [sep] = true) := fun hc => h ((strContains_single sep s).1 hc)
    rw [if_neg h2]
    symm
    rw [List.takeWhile_eq_self_iff]
    intro x hx
    have : x ≠ sep := fun e => h (e ▸ hx)
    simpa using this

theorem trimSuffix_slash_concat (l : GoString) (c : Char) :
    trimSuffix (l ++ [c]) ['/'] = if c = '/' then l else l ++ [c] := by
  unfold trimSuffix hasSuffix
  by_cases h : c = '/'
  · subst h
    have : (['/'] : GoString).isSuffixOf (l ++ ['/']) = true := by
      rw [List.isSuffixOf_iff_suffix]; exact List.suffix_append _ _
    simp [this]
  · have : ¬ ((['/'] : GoString).isSuffixOf (l ++ [c]) = true) := by
      rw [List.isSuffixOf_iff_suffix]
      rintro ⟨t, ht⟩
      have := congrArg List.getLast? ht
      simp at this
      exact h this.symm
    simp [this, h]

theorem trimSuffix_isPrefix (s suf : GoString) : trimSuffix s suf <+: s := by
  unfold trimSuffix
  split
  · exact List.take_prefix _ _
  · exact List.prefix_refl _

theorem getLink_eq (s : GoString) :
    getLink s = trimSuffix (trimSpace ((s.takeWhile (fun c => c != '#')).takeWhile
      (fun c => c != '?'))) ['/'] := by
  unfold getLink
  simp only [cut_eq_takeWhile]

theorem getLink_prefix_dropWhile (s : GoString) :
    getLink s <+: (((s.takeWhile (fun c => c != '#')).takeWhile
      (fun c => c != '?')).dropWhile isSpace) := by
  rw [getLink_eq]
  exact (trimSuffix_isPrefix _ _).trans ( List.rdropWhile_prefix isSpace _)

theorem getLink_no_marks (s : GoString) (c : Char) (hc : c ∈ getLink s) :
    (c != '#') = true ∧ (c != '?') = true := by
  have h1 := (getLink_prefix_dropWhile s).subset hc
  have h2 := (List.dropWhile_suffix _).subset h1
  have h3 := List.mem_takeWhile_imp (p := fun c => c != '?') h2
  have h4 := List.mem_takeWhile_imp (p := fun c => c != '#')
    (( List.takeWhile_prefix _).subset h2)
  exact ⟨h4, h3⟩

theorem getLink_head_not_space (s : GoString) (c : Char) (r : GoString)
    (h : getLink s = c :: r) : isSpace c = false := by
  have hp := getLink_prefix_dropWhile s
  rw [h] at hp
  obtain ⟨t, ht⟩ := hp
  have hd := List.head?_dropWhile_not isSpace
    ((s.takeWhile (fun c => c != '#')).takeWhile (fun c => c != '?'))
  rw [← ht] at hd
  simpa using hd

/-- A string without `#` and `?` that does not start with white space is a
fixed point of `getLink` exactly when it ends cleanly. -/
theorem getLink_fixed_iff (t : GoString)
    (ha : ∀ c ∈ t, (c != '#') = true ∧ (c != '?') = true)
    (hb : ∀ c r, t = c :: r → isSpace c = false) :
    getLink t = t ↔ endsClean t = true := by
  have e1 : t.takeWhile (fun c => c != '#') = t :=
    List.takeWhile_eq_self_iff.2 (fun x hx => (ha x hx).1)
  have e2 : t.takeWhile (fun c => c != '?') = t :=
    List.takeWhile_eq_self_iff.2 (fun x hx => (ha x hx).2)
  have e3 : t.dropWhile isSpace = t := by
    cases t with
    | nil => rfl
    | cons c r => simp [List.dropWhile_cons, hb c r rfl]
  rw [getLink_eq, e1, e2]
  unfold trimSpace
  rw [e3]
  rcases List.eq_nil_or_concat t with h | ⟨l, c, h⟩
  · subst h
    simp [List.rdropWhile, trimSuffix, hasSuffix, endsClean]
  · rw [List.concat_eq_append] at h
    subst h
    by_cases hs : isSpace c = true
    · rw [List.rdropWhile_concat_pos _ _ _ hs]
      have hlen : (trimSuffix (List.rdropWhile isSpace l) ['/']).length ≤ l.length :=
        ((trimSuffix_isPrefix _ _).trans ( List.rdropWhile_prefix isSpace _)).length_le
      constructor
      · intro h
        have := congrArg List.length h
        simp at this
        omega
      · intro h
        simp [endsClean, hs] at h
    · rw [List.rdropWhile_concat_neg _ _ _ hs, trimSuffix_slash_concat]
      have hs2 : isSpace c = false := by simpa using hs
      by_cases hc : c = '/'
      · simp [hc, endsClean]
      · simp [hc, endsClean, hs2]

/-! ### C2 -/

/-- C2 (counterexample): `getLink` is not idempotent: on `a//` one application
gives `a/` and a second one gives `a`. -/
theorem getLink_not_idempotent :
    getLink "a//".toList = "a/".toList ∧
    getLink (getLink "a//".toList) = "a".toList ∧
    getLink (getLink "a//".toList) ≠ getLink "a//".toList := by
  decide

/-- C2 (amended): for every string `s`, a second application of `getLink`
changes nothing exactly when `getLink s` ends neither in `/` nor in white
space. -/
theorem getLink_idempotent_iff (s : GoString) :
    getLink (getLink s) = getLink s ↔ endsClean (getLink s) = true :=
  getLink_fixed_iff (getLink s) (getLink_no_marks s)
    (fun c r h => getLink_head_not_space s c r h)

/-! ### Ingest: the switch on the token -/

theorem switchToken_desc (E : Env) (cfg : IngestConfig) (raw payload : GoString) (page : PageData) :
    switchToken E cfg "desc".toList raw payload page =
      some (if goLen page.About < 30 ∧ goLen raw < 100 ∧ goLen raw > goLen page.About then
        { page with About := raw, AboutSource := "desc".toList } else page,
        partitionSentence E payload, 1, []) := by
  simp +decide [switchToken]

theorem switchToken_ogdesc (E : Env) (cfg : IngestConfig) (raw payload : GoString) (page : PageData) :
    switchToken E cfg "og-desc".toList raw payload page =
      some ({ page with About := raw, AboutSource := "og-desc".toList },
        partitionSentence E payload, 1, []) := by
  simp +decide [switchToken]

theorem switchToken_para (E : Env) (cfg : IngestConfig) (raw payload : GoString) (page : PageData) :
    switchToken E cfg "para".toList raw payload page =
      some (if page.AboutSource ≠ "og-desc".toList ∨ goLen raw * 10 > goLen page.About * 7 then
        (if performAboutHeuristic E cfg.heuristics payload then
          { page with About := raw, AboutSource := "para".toList } else page) else page,
        partitionSentence E payload, 1, []) := by
  simp +decide [switchToken]

/-! ### C1 -/

/-- C1: from the empty page map, a `desc` record, then an `og-desc` record with
payload `P`, then a `para` record with payload `C`, all for one page URL, leave
`About == P` and `AboutSource == "og-desc"` whenever `C` fails the length-ratio
condition (`len(C)*10 > len(P)*7` is false) or the about-heuristic filter, which
`Ingest` applies to the lowercased payload. -/
theorem about_precedence (E : Env) (cfg : IngestConfig) (u D P C : GoString) (d1 d2 d3 : Int)
    (h : goLen C * 10 ≤ goLen P * 7 ∨
      performAboutHeuristic E cfg.heuristics (toLower E C) = false) :
    (mapGet? ([⟨"desc".toList, d1, u, D⟩, ⟨"og-desc".toList, d2, u, P⟩,
        ⟨"para".toList, d3, u, C⟩].foldl (processRecord E cfg) ingestInit).pages u).map
      (fun page => (page.About, page.AboutSource)) = some (P, "og-desc".toList) := by
  simp +decide only [List.foldl, processRecord, switchToken_desc, switchToken_ogdesc,
    switchToken_para, currentPage, mapGet?, mapSet, flushIfFull, ingestInit, if_true, if_false,
    List.length_singleton, List.length_cons, List.length_nil]
  by_cases hr : goLen C * 10 > goLen P * 7
  · rcases h with h | h
    · omega
    · simp [h]
  · simp [hr]

/-- C1 (witness): `desc "short"`, `og-desc "long desc"`, `para "whatever"` end
with `About == "long desc"` and `AboutSource == "og-desc"`. -/
theorem about_precedence_witness :
    performAboutHeuristic plainEnv [] (toLower plainEnv "whatever".toList) = false ∧
    (mapGet? ([⟨"desc".toList, 1, "http://a".toList, "short".toList⟩,
        ⟨"og-desc".toList, 1, "http://a".toList, "long desc".toList⟩,
        ⟨"para".toList, 1, "http://a".toList, "whatever".toList⟩].foldl
          (processRecord plainEnv ⟨[], []⟩) ingestInit).pages "http://a".toList).map
      (fun page => (page.About, page.AboutSource))
      = some ("long desc".toList, "og-desc".toList) :=
  ⟨by decide, about_precedence plainEnv ⟨[], []⟩ "http://a".toList "short".toList
    "long desc".toList "whatever".toList 1 1 1 (Or.inr (by decide))⟩

/-! ### C3, C4: the rule-based crawling step -/

/-- C3 (failing input): with the single member `https://host/site/x`, which
`getDomains` returns as a pathsite, the link `https://host/site/xyz` on the
same hostname is handed to the queue although it neither equals the member URL
nor continues it after a `/`. -/
theorem pathsite_prefix_escapes_subtree :
    (getDomains plainEnv [⟨"https://host/site/x".toList, 1⟩]).2
      = ["https://host/site/x".toList] ∧
    plainParse "https://host/site/x".toList = some ⟨"host".toList, "/site/x".toList⟩ ∧
    plainParse "https://host/site/xyz".toList = some ⟨"host".toList, "/site/xyz".toList⟩ ∧
    enqueues ["https://host/site/x".toList] "host".toList "https://host/site/xyz".toList = true ∧
    linkHandlerEnqueues plainEnv ["https://host/site/x".toList] "https://host/site/xyz".toList
      = true ∧
    inSubtree "https://host/site/x".toList "https://host/site/xyz".toList = false := by
  decide

/-- C4 (failing input): with the single pathsite `https://example.com/site/x`,
the link `https://ample.com/page`, whose hostname `ample.com` is not the
hostname of any pathsite, is not handed to the queue, while with an empty
pathsite list it is. -/
theorem pathsite_rule_hits_other_hostname :
    plainParse "https://example.com/site/x".toList
      = some ⟨"example.com".toList, "/site/x".toList⟩ ∧
    plainParse "https://ample.com/page".toList = some ⟨"ample.com".toList, "/page".toList⟩ ∧
    findPathsite ["https://example.com/site/x".toList] "ample.com".toList
      = "https://example.com/site/x".toList ∧
    enqueues ["https://example.com/site/x".toList] "ample.com".toList
      "https://ample.com/page".toList = false ∧
    enqueues [] "ample.com".toList "https://ample.com/page".toList = true := by
  decide

/-! ### C9: the hostname-to-depth map -/

theorem mapGet?_mapSet {V : Type} (m : List (GoString × V)) (k k2 : GoString) (v : V) :
    mapGet? (mapSet m k v) k2 = if k = k2 then some v else mapGet? m k2 := by
  induction m with
  | nil => simp [mapSet, mapGet?]
  | cons p m ih =>
    obtain ⟨a, b⟩ := p
    by_cases h : a = k
    · subst h
      simp only [mapSet, if_true, mapGet?]
      by_cases h2 : a = k2 <;> simp [h2]
    · simp only [mapSet, h, if_false, mapGet?, ih]
      by_cases h2 : a = k2
      · subst h2
        simp [h, Ne.symm h]
      · simp [h2]

theorem mapGet?_precrawlDepths_aux (E : Env) (links : List WebringLink) (h : GoString)
    (m : List (GoString × Int)) :
    mapGet? (links.foldl (fun m link =>
      match E.urlParse link.URL with
      | none => m
      | some u => mapSet m u.hostname link.Depth) m) h
      = match (membersOn E links h).getLast? with
        | some link => some link.Depth
        | none => mapGet? m h := by
  induction links using List.reverseRecOn with
  | nil => simp [membersOn]
  | append_singleton l a ih =>
    rw [List.foldl_append]
    simp only [List.foldl_cons, List.foldl_nil, membersOn, List.filter_append]
    cases hp : E.urlParse a.URL with
    | none =>
      simp only [List.filter_cons, List.filter_nil, hp]
      simpa [membersOn] using ih
    | some u =>
      simp only [List.filter_cons, List.filter_nil, hp]
      rw [mapGet?_mapSet]
      by_cases hu : u.hostname = h
      · simp [hu]
      · simp only [hu, if_false]
        have : (u.hostname == h) = false := by simpa using hu
        simp only [this]
        simpa [membersOn] using ih

/-- C9 (counterexample): for the members `https://a.com/x` at depth 1 and
`https://a.com/y` at depth 2, the depth recorded for `a.com` is 2, not the
depth 1 of the first member on that hostname. -/
theorem first_member_depth_overridden :
    depthOf (precrawlDepths plainEnv
      [⟨"https://a.com/x".toList, 1⟩, ⟨"https://a.com/y".toList, 2⟩]) "a.com".toList = 2 ∧
    ((membersOn plainEnv [⟨"https://a.com/x".toList, 1⟩, ⟨"https://a.com/y".toList, 2⟩]
      "a.com".toList).head?.map (fun link => link.Depth)) = some 1 := by
  decide

/-- C9 (amended): for every webring member list and hostname, the depth that
`Crawl` records for the hostname is the depth of the last member in list
order with that hostname (and reads as 0 when there is none): a later member
with the same hostname overrides the earlier ones. -/
theorem precrawlDepths_last_member (E : Env) (links : List WebringLink) (h : GoString) :
    depthOf (precrawlDepths E links) h
      = (((membersOn E links h).getLast?).map (fun link => link.Depth)).getD 0 := by
  unfold depthOf precrawlDepths
  rw [mapGet?_precrawlDepths_aux]
  cases (membersOn E links h).getLast? with
  | none => simp [mapGet?]
  | some link => simp

/-! ### The line parser -/

theorem hasPrefix_trimSuffix (s suf pre : GoString) (h : hasPrefix s pre = false) :
    hasPrefix (trimSuffix s suf) pre = false := by
  unfold hasPrefix at h ⊢
  cases hp : pre.isPrefixOf (trimSuffix s suf) with
  | false => rfl
  | true =>
    have h1 : pre <+: trimSuffix s suf := List.isPrefixOf_iff_prefix.1 hp
    have h2 : pre <+: s := h1.trans (trimSuffix_isPrefix s suf)
    rw [List.isPrefixOf_iff_prefix.2 h2] at h
    exact Bool.noConfusion h

theorem splitChar_append_sep (sep : Char) (a b : GoString) :
    splitChar sep (a ++ sep :: b) = splitChar sep a ++ splitChar sep b := by
  induction a with
  | nil => simp [splitChar]
  | cons c a ih =>
    simp only [List.cons_append, splitChar]
    by_cases h : c = sep
    · simp [h, ih]
    · simp only [h, if_false]
      have ih2 : splitChar sep (a.append (sep :: b)) = splitChar sep a ++ splitChar sep b := ih
      rw [ih2]
      cases hs : splitChar sep a with
      | nil => exact absurd hs (splitChar_ne_nil sep a)
      | cons w ws => rfl

theorem splitChar_of_not_mem (sep : Char) (w : GoString) (h : sep ∉ w) :
    splitChar sep w = [w] := by
  induction w with
  | nil => simp [splitChar]
  | cons c w ih =>
    have hc : c ≠ sep := fun e => h (by simp [e])
    have hw : sep ∉ w := fun e => h (by simp [e])
    simp [splitChar, hc, ih hw]

theorem strJoin_cons (sep w : GoString) (ws : List GoString) (h : ws ≠ []) :
    strJoin sep (w :: ws) = w ++ sep ++ strJoin sep ws := by
  cases ws with
  | nil => exact absurd rfl h
  | cons w2 ws => rfl

theorem strJoin_splitChar (sep : Char) (s : GoString) :
    strJoin [sep] (splitChar sep s) = s := by
  induction s with
  | nil => simp [splitChar, strJoin]
  | cons c s ih =>
    simp only [splitChar]
    by_cases h : c = sep
    · simp only [h, if_true]
      rw [strJoin_cons _ _ _ (splitChar_ne_nil sep s), ih]
      simp
    · simp only [h, if_false]
      cases hs : splitChar sep s with
      | nil => exact absurd hs (splitChar_ne_nil sep s)
      | cons w ws =>
        rw [hs] at ih
        cases ws with
        | nil =>
          simp only [strJoin] at ih ⊢
          rw [ih]
        | cons w2 ws =>
          simp only [strJoin] at ih ⊢
          rw [← ih]
          simp

/-! ### C6 -/

/-- C6: for every ingest state, a line that splits on single spaces into fewer
than 3 fields, or whose second-to-last field does not start with `http`, leaves
the whole state unchanged: page map, fragment buffer, external links, and the
list of flushes. -/
theorem malformed_line_skipped (E : Env) (cfg : IngestConfig) (st : IngestState)
    (line : GoString)
    (h : (splitChar ' ' line).length < 3 ∨
      hasPrefix ((splitChar ' ' line).getD ((splitChar ' ' line).length - 2) [])
        "http".toList = false) :
    ingestLine E cfg st line = st := by
  have hp : parseLine line = none := by
    unfold parseLine
    rcases h with h | h
    · simp [h]
    · have h2 := hasPrefix_trimSuffix _ ['/'] _ h
      by_cases hl : (splitChar ' ' line).length < 3
      · simp only [hl, if_true]
      · simp only [hl, if_false, h2, Bool.not_false, if_true]
  unfold ingestLine
  rw [hp]
  simp

/-- C6 (witness): the two-field line `title http://a` and the line
`title x ftp://a 1` leave a state with one stored page unchanged. -/
theorem malformed_line_skipped_witness :
    (splitChar ' ' "title http://a".toList).length < 3 ∧
    ingestLine plainEnv ⟨[], []⟩
      (ingestLoop plainEnv ⟨[], []⟩ ["h1 hello http://a 1".toList]) "title http://a".toList
      = ingestLoop plainEnv ⟨[], []⟩ ["h1 hello http://a 1".toList] :=
  ⟨by decide, malformed_line_skipped plainEnv ⟨[], []⟩ _ "title http://a".toList
    (Or.inl (by decide))⟩

/-! ### Decimal printing and `strconv.Atoi` -/

theorem digitChar_toNat (k : Nat) (hk : k < 10) : (Nat.digitChar k).toNat = 48 + k := by
  interval_cases k <;> rfl

theorem natDigits_digits (fuel n : Nat) :
    ∀ c ∈ natDigits fuel n, 48 ≤ c.toNat ∧ c.toNat ≤ 57 := by
  induction fuel generalizing n with
  | zero => simp [natDigits]
  | succ fuel ih =>
    intro c hc
    unfold natDigits at hc
    by_cases h : n < 10
    · rw [if_pos h] at hc
      simp only [List.mem_singleton] at hc
      rw [hc, digitChar_toNat n h]
      omega
    · rw [if_neg h] at hc
      rcases List.mem_append.1 hc with hc | hc
      · exact ih _ c hc
      · simp only [List.mem_singleton] at hc
        rw [hc, digitChar_toNat _ (Nat.mod_lt n (by decide))]
        have := Nat.mod_lt n (show 10 > 0 by decide)
        omega

theorem natDigits_ne_nil (fuel n : Nat) : natDigits (fuel + 1) n ≠ [] := by
  unfold natDigits
  split <;> simp

theorem parseDigits_append_single (xs : GoString) (c : Char) (acc : Nat) :
    parseDigits (xs ++ [c]) acc =
      match parseDigits xs acc with
      | some m => if 48 ≤ c.toNat ∧ c.toNat ≤ 57 then some (m * 10 + (c.toNat - 48)) else none
      | none => none := by
  induction xs generalizing acc with
  | nil => simp [parseDigits]
  | cons x xs ih =>
    simp only [List.cons_append, parseDigits]
    split
    · exact ih _
    · rfl

theorem parseDigits_natDigits (fuel n : Nat) (h : n < fuel) :
    parseDigits (natDigits fuel n) 0 = some n := by
  induction fuel generalizing n with
  | zero => omega
  | succ fuel ih =>
    unfold natDigits
    by_cases h10 : n < 10
    · rw [if_pos h10]
      have hd := digitChar_toNat n h10
      simp only [parseDigits, hd]
      have : 48 ≤ 48 + n ∧ 48 + n ≤ 57 := by omega
      rw [if_pos this]
      congr 1
      omega
    · rw [if_neg h10, parseDigits_append_single, ih (n / 10) (by omega)]
      have hm := Nat.mod_lt n (show 10 > 0 by decide)
      have hd := digitChar_toNat (n % 10) hm
      simp only [hd]
      have : 48 ≤ 48 + n % 10 ∧ 48 + n % 10 ≤ 57 := by omega
      rw [if_pos this]
      congr 1
      omega

theorem atoi_fmtInt (d : Int) (h1 : -(2 ^ 63 : Int) ≤ d) (h2 : d < (2 ^ 63 : Int)) :
    atoi (fmtInt d) = some d := by
  have hp := parseDigits_natDigits (d.natAbs + 1) d.natAbs (Nat.lt_succ_self _)
  unfold fmtInt
  by_cases hneg : d < 0
  · rw [if_pos hneg]
    have hne := natDigits_ne_nil d.natAbs d.natAbs
    have hemp : (natDigits (d.natAbs + 1) d.natAbs).isEmpty = false := by
      cases hx : natDigits (d.natAbs + 1) d.natAbs with
      | nil => exact absurd hx hne
      | cons a l => rfl
    simp only [atoi, true_or, if_true, hemp, hp, Bool.false_eq_true, if_false]
    have hle : d.natAbs ≤ 2 ^ 63 := by omega
    rw [if_pos hle]
    congr 1
    omega
  · rw [if_neg hneg]
    have hne := natDigits_ne_nil d.natAbs d.natAbs
    cases hx : natDigits (d.natAbs + 1) d.natAbs with
    | nil => exact absurd hx hne
    | cons c rest =>
      have hc := natDigits_digits (d.natAbs + 1) d.natAbs c (by rw [hx]; simp)
      have hc1 : c ≠ '-' := by
        intro e; rw [e] at hc; revert hc; decide
      have hc2 : c ≠ '+' := by
        intro e; rw [e] at hc; revert hc; decide
      rw [hx] at hp
      simp only [atoi, hc1, hc2, or_self, if_false, List.isEmpty_cons, Bool.false_eq_true, hp]
      have hlt : d.natAbs < 2 ^ 63 := by omega
      rw [if_pos hlt]
      congr 1
      omega

theorem space_not_mem_fmtInt (d : Int) : ' ' ∉ fmtInt d := by
  intro h
  unfold fmtInt at h
  have key : ' ' ∉ natDigits (d.natAbs + 1) d.natAbs := by
    intro hm
    have := natDigits_digits _ _ _ hm
    revert this
    decide
  split at h
  · rcases List.mem_cons.1 h with h | h
    · revert h; decide
    · exact key h
  · exact key h

/-! ### C10: the wire format -/

theorem splitChar_printRecord (t p u : GoString) (d : Int) (ht : ' ' ∉ t) (hu : ' ' ∉ u) :
    splitChar ' ' (printRecord t p u d) = t :: (splitChar ' ' p ++ [u, fmtInt d]) := by
  have e : printRecord t p u d = t ++ ' ' :: (p ++ ' ' :: (u ++ ' ' :: fmtInt d)) := by
    simp [printRecord, List.append_assoc]
  rw [e, splitChar_append_sep, splitChar_append_sep, splitChar_append_sep,
    splitChar_of_not_mem _ t ht, splitChar_of_not_mem _ u hu,
    splitChar_of_not_mem _ _ (space_not_mem_fmtInt d)]
  simp

theorem fields_of_parts (t u fd : GoString) (sp : List GoString) :
    (t :: (sp ++ [u, fd])).length = sp.length + 3 ∧
    (t :: (sp ++ [u, fd])).getD (sp.length + 2) [] = fd ∧
    (t :: (sp ++ [u, fd])).getD (sp.length + 1) [] = u ∧
    ((t :: (sp ++ [u, fd])).take (sp.length + 1)).drop 1 = sp := by
  refine ⟨by simp, ?_, ?_, ?_⟩
  · simp only [List.getD_eq_getElem?_getD, List.getElem?_cons_succ]
    rw [List.getElem?_append_right (by omega)]
    simp
  · simp only [List.getD_eq_getElem?_getD, List.getElem?_cons_succ]
    rw [List.getElem?_append_right (by omega)]
    simp
  · simp [List.take_append_of_le_length]

theorem hasPrefix_http_trimSuffix (u : GoString) (h : hasPrefix u "http".toList = true) :
    hasPrefix (trimSuffix u ['/']) "http".toList = true := by
  unfold hasPrefix at h ⊢
  rw [List.isPrefixOf_iff_prefix] at h ⊢
  obtain ⟨rest, hr⟩ := h
  rcases List.eq_nil_or_concat rest with h0 | ⟨l, c, hl⟩
  · subst h0
    rw [← hr]
    decide
  · rw [List.concat_eq_append] at hl
    subst hl
    rw [← hr, ← List.append_assoc, trimSuffix_slash_concat]
    split
    · exact List.prefix_append _ _
    · rw [List.append_assoc]; exact List.prefix_append _ _

/-- The line parser inverts the printing of a record by the crawler. -/
theorem parseLine_of_printRecord (t p u : GoString) (d : Int)
    (ht : ' ' ∉ t) (hu : ' ' ∉ u) (hhttp : hasPrefix u "http".toList = true)
    (hd1 : -(2 ^ 63 : Int) ≤ d) (hd2 : d < (2 ^ 63 : Int)) :
    parseLine (printRecord t p u d) = some ⟨t, d, trimSuffix u ['/'], p⟩ := by
  obtain ⟨hlen, hlast, hurl, hmid⟩ := fields_of_parts t u (fmtInt d) (splitChar ' ' p)
  unfold parseLine
  simp only [splitChar_printRecord t p u d ht hu, hlen]
  have e1 : (splitChar ' ' p).length + 3 - 1 = (splitChar ' ' p).length + 2 := by omega
  have e2 : (splitChar ' ' p).length + 3 - 2 = (splitChar ' ' p).length + 1 := by omega
  have e3 : ¬ ((splitChar ' ' p).length + 3 < 3) := by omega
  rw [if_neg e3]
  simp only [e1, e2, hlast, hurl, hmid, atoi_fmtInt d hd1 hd2, strJoin_splitChar,
    hasPrefix_http_trimSuffix u hhttp, List.headD_cons, Bool.not_true, Bool.false_eq_true,
    if_false]

/-- C10: for every token `t` and URL `u` without a space, `u` starting with
`http`, every payload `p` (empty, or with leading, trailing or repeated spaces)
and every depth `d` of the 64-bit `int`, the line parser of `Ingest` applied to
the line the crawler prints for `(t, p, u, d)` recovers the token `t`, the raw
payload exactly `p`, the page URL `u` with one trailing `/` stripped, and the
depth `d`. -/
theorem parseLine_printRecord (t p u : GoString) (d : Int)
    (ht : ' ' ∉ t) (hu : ' ' ∉ u) (hhttp : hasPrefix u "http".toList = true)
    (hd1 : -(2 ^ 63 : Int) ≤ d) (hd2 : d < (2 ^ 63 : Int)) :
    parseLine (printRecord t p u d) = some ⟨t, d, trimSuffix u ['/'], p⟩ :=
  parseLine_of_printRecord t p u d ht hu hhttp hd1 hd2

/-- C10 (witness): the line printed for the token `title`, the payload
`"  two  spaces "`, the URL `https://a.b/c/` and the depth `-3`. -/
theorem parseLine_printRecord_witness :
    printRecord "title".toList "  two  spaces ".toList "https://a.b/c/".toList (-3)
      = "title   two  spaces  https://a.b/c/ -3".toList ∧
    parseLine (printRecord "title".toList "  two  spaces ".toList "https://a.b/c/".toList (-3))
      = some ⟨"title".toList, -3, "https://a.b/c".toList, "  two  spaces ".toList⟩ :=
  ⟨by decide, parseLine_printRecord "title".toList "  two  spaces ".toList
    "https://a.b/c/".toList (-3) (by decide) (by decide) (by decide) (by decide) (by decide)⟩

/-! ### C7: Precrawl prints one link per normalized hostname -/

theorem find_eq_true_iff (list : List GoString) (q : GoString) :
    find list q = true ↔ q ∈ list := by
  unfold find
  rw [List.any_eq_true]
  constructor
  · rintro ⟨x, hx, he⟩
    have : x = q := by simpa using he
    exact this ▸ hx
  · intro h
    exact ⟨q, h, by simp⟩

theorem sporeStep_inv (E : Env) (BANNED : List GoString) (depth : Nat)
    (st : PrecrawlState) (item : GoString) (h : DedupInv E st) :
    DedupInv E (sporeStep E BANNED depth st item) := by
  simp only [sporeStep]
  cases hp : E.urlParse (getLink item) with
  | none => exact h
  | some u =>
    simp only
    by_cases hc : (find BANNED u.hostname || find st.alreadyCrawled (getLink item)
        || find st.seenDomains (normalizeDomain E (getLink item))) = true
    · rw [if_pos hc]; exact h
    · rw [if_neg hc]
      have hns : normalizeDomain E (getLink item) ∉ st.seenDomains := by
        intro hm
        apply hc
        simp [(find_eq_true_iff _ _).2 hm]
      obtain ⟨h1, h2⟩ := h
      refine ⟨?_, ?_⟩
      · simp only [List.map_append, List.map_cons, List.map_nil]
        rw [List.nodup_append]
        refine ⟨h1, List.nodup_singleton _, ?_⟩
        intro a ha hb
        simp only [List.mem_singleton] at hb
        obtain ⟨line, hl, he⟩ := List.mem_map.1 ha
        apply hns
        rw [← hb, ← he]
        exact h2 line hl
      · intro line hl
        simp only [List.mem_append, List.mem_singleton] at hl ⊢
        rcases hl with hl | hl
        · exact Or.inl (h2 line hl)
        · right; rw [hl]

theorem foldl_sporeStep_inv (E : Env) (BANNED : List GoString) (depth : Nat)
    (spores : List GoString) (st : PrecrawlState) (h : DedupInv E st) :
    DedupInv E (spores.foldl (sporeStep E BANNED depth) st) := by
  induction spores generalizing st with
  | nil => exact h
  | cons s spores ih => exact ih _ (sporeStep_inv E BANNED depth st s h)

theorem hyphaStep_inv (E : Env) (BANNED : List GoString) (fetch : GoString → Response)
    (depth : Nat) (acc : PrecrawlState × List GoString) (link : GoString)
    (h : DedupInv E acc.1) : DedupInv E (hyphaStep E BANNED fetch depth acc link).1 := by
  unfold hyphaStep
  split
  · exact h
  · have h0 : DedupInv E { acc.1 with
        fetched := acc.1.fetched ++ [link]
        exploredHyphae := acc.1.exploredHyphae ++ [link] } := h
    simp only
    split
    · exact h0
    · exact h0
    · exact foldl_sporeStep_inv E BANNED depth _ _ h0

theorem foldl_hyphaStep_inv (E : Env) (BANNED : List GoString) (fetch : GoString → Response)
    (depth : Nat) (level : List GoString) (acc : PrecrawlState × List GoString)
    (h : DedupInv E acc.1) :
    DedupInv E (level.foldl (hyphaStep E BANNED fetch depth) acc).1 := by
  induction level generalizing acc with
  | nil => exact h
  | cons l level ih => exact ih _ (hyphaStep_inv E BANNED fetch depth acc l h)

theorem precrawlLoop_inv (E : Env) (BANNED : List GoString) (fetch : GoString → Response)
    (fuel depth : Nat) (st : PrecrawlState) (level : List GoString) (h : DedupInv E st) :
    DedupInv E (precrawlLoop E BANNED fetch fuel depth st level) := by
  induction fuel generalizing depth st level with
  | zero => exact h
  | succ fuel ih =>
    unfold precrawlLoop
    split
    · exact h
    · exact ih _ _ _ (foldl_hyphaStep_inv E BANNED fetch _ level (st, []) h)

/-- C7: for every fetch oracle, banned list and number of levels run, no two
`url | depth` lines printed by one `Precrawl` run have the same normalized
hostname (hostname with one leading `www.` stripped). -/
theorem precrawl_domain_dedup (E : Env) (BANNED : List GoString)
    (fetch : GoString → Response) (url : GoString) (fuel : Nat) :
    ((precrawlOutput E BANNED fetch url fuel).map
      (fun line => normalizeDomain E line.1)).Nodup := by
  have h0 : DedupInv E ⟨[], [], [], [], [url]⟩ := ⟨by simp, by simp⟩
  simp only [precrawlOutput, Precrawl]
  cases fetch url with
  | failed => simp
  | answer status doc =>
    by_cases hs : status = 200
    · cases doc with
      | none => simp [hs]
      | some mushroom =>
        simp only [hs, ne_eq, not_true_eq_false, if_false]
        exact (precrawlLoop_inv E BANNED fetch fuel 1 _ _
          (foldl_sporeStep_inv E BANNED 1 _ _ h0)).1
    · simp [hs]

/-! ### C8: the tokenizer -/

theorem switchToken_title (E : Env) (cfg : IngestConfig) (raw payload : GoString)
    (page : PageData) :
    switchToken E cfg "title".toList raw payload page =
      some ({ (if goLen page.About = 0 then
          { page with About := raw, AboutSource := "title".toList } else page)
          with Title := raw }, partitionSentence E payload, 5, []) := by
  simp +decide [switchToken]

theorem switchToken_h1 (E : Env) (cfg : IngestConfig) (raw payload : GoString)
    (page : PageData) :
    switchToken E cfg "h1".toList raw payload page =
      some (if goLen page.About = 0 then
        { page with About := raw, AboutSource := "h1".toList } else page,
        partitionSentence E payload, 15, []) := by
  simp +decide [switchToken]

theorem switchToken_h2 (E : Env) (cfg : IngestConfig) (raw payload : GoString)
    (page : PageData) :
    switchToken E cfg "h2".toList raw payload page =
      some (page, partitionSentence E payload, 15, []) := by
  simp +decide [switchToken]

theorem switchToken_h3 (E : Env) (cfg : IngestConfig) (raw payload : GoString)
    (page : PageData) :
    switchToken E cfg "h3".toList raw payload page =
      some (page, partitionSentence E payload, 15, []) := by
  simp +decide [switchToken]

theorem switchToken_text (E : Env) (cfg : IngestConfig) (token raw payload : GoString)
    (page : PageData) (ht : token ∈ textTokens) :
    ∃ page2 score, switchToken E cfg token raw payload page
      = some (page2, partitionSentence E payload, score, []) := by
  simp only [textTokens, List.mem_cons, List.mem_singleton, List.not_mem_nil, or_false] at ht
  rcases ht with h | h | h | h | h | h | h <;> subst h
  · exact ⟨_, _, switchToken_title E cfg raw payload page⟩
  · exact ⟨_, _, switchToken_h1 E cfg raw payload page⟩
  · exact ⟨_, _, switchToken_h2 E cfg raw payload page⟩
  · exact ⟨_, _, switchToken_h3 E cfg raw payload page⟩
  · exact ⟨_, _, switchToken_desc E cfg raw payload page⟩
  · exact ⟨_, _, switchToken_ogdesc E cfg raw payload page⟩
  · exact ⟨_, _, switchToken_para E cfg raw payload page⟩

theorem filterCommonWords_foldl (E : Env) (words wordlist acc : List GoString) :
    words.foldl (fun filtered word =>
        if goLen word = 1 ∨ find wordlist word = true then filtered
        else filtered ++ [E.singular word]) acc
      = acc ++ (words.filter
          (fun word => !(decide (goLen word = 1) || find wordlist word))).map E.singular := by
  induction words generalizing acc with
  | nil => simp
  | cons w words ih =>
    rw [List.foldl_cons, ih]
    by_cases h : goLen w = 1 ∨ find wordlist w = true
    · rw [if_pos h]
      have hw : (!(decide (goLen w = 1) || find wordlist w)) = false := by
        rcases h with h | h <;> simp [h]
      rw [List.filter_cons_of_neg
        (p := fun word => !(decide (goLen word = 1) || find wordlist word))
        (by show ¬ ((!(decide (goLen w = 1) || find wordlist w)) = true)
            rw [hw]; exact Bool.false_ne_true)]
    · rw [if_neg h]
      have hw : (!(decide (goLen w = 1) || find wordlist w)) = true := by
        simp only [not_or] at h
        simp [h.1, h.2]
      rw [List.filter_cons_of_pos
        (p := fun word => !(decide (goLen word = 1) || find wordlist word)) hw]
      simp

theorem filterCommonWords_eq (E : Env) (words wordlist : List GoString) :
    filterCommonWords E words wordlist
      = (words.filter
          (fun word => !(decide (goLen word = 1) || find wordlist word))).map E.singular := by
  unfold filterCommonWords
  rw [filterCommonWords_foldl]
  simp

theorem allFragments_flushIfFull (st : IngestState) :
    allFragments (flushIfFull st) = allFragments st := by
  unfold flushIfFull allFragments
  split <;> simp

/-- The fragment words a text record adds, with the length test as the code
makes it. -/
theorem processRecord_words (E : Env) (cfg : IngestConfig) (st : IngestState) (r : Record)
    (ht : r.token ∈ textTokens) :
    (allFragments (processRecord E cfg st r)).map (fun f => f.Word)
      = (allFragments st).map (fun f => f.Word) ++ tokenWords E cfg.wordlist r.rawdata
        ++ (if r.token = "title".toList then
              (extractPathSegments E (toLower E r.pageurl)).getD [] else []) := by
  obtain ⟨page2, score, hsw⟩ :=
    switchToken_text E cfg r.token r.rawdata (toLower E r.rawdata) (currentPage st.pages r) ht
  unfold processRecord
  simp only [hsw, filterCommonWords_eq]
  by_cases htitle : r.token = "title".toList
  · simp only [htitle, if_true]
    cases hseg : extractPathSegments E (toLower E r.pageurl) with
    | none =>
      simp [allFragments, tokenWords, List.map_append, Function.comp_def]
    | some segs =>
      simp only [allFragments_flushIfFull]
      simp [allFragments, tokenWords, List.map_append, Function.comp_def]
  · simp only [htitle, if_false, allFragments_flushIfFull]
    simp [allFragments, tokenWords, List.map_append, Function.comp_def]

theorem length_eq_one_of_goLen (w : GoString) (h : goLen w = 1) : w.length = 1 := by
  cases w with
  | nil => simp [goLen] at h
  | cons c cs =>
    cases cs with
    | nil => rfl
    | cons d ds =>
      have h1 := Char.utf8Size_pos c
      have h2 := Char.utf8Size_pos d
      simp only [goLen, List.map_cons, List.sum_cons] at h
      omega

theorem tokenWords_eq_specWords (E : Env) (wordlist : List GoString) (rawdata : GoString)
    (hsingle : ∀ w ∈ partitionSentence E (toLower E rawdata), w.length = 1 → goLen w = 1) :
    tokenWords E wordlist rawdata = specWords E wordlist rawdata := by
  unfold tokenWords specWords
  congr 1
  apply List.filter_congr
  intro w hw
  have e : decide (goLen w = 1) = decide (w.length = 1) := by
    by_cases h : w.length = 1
    · simp [h, hsingle w hw h]
    · have h2 : ¬ goLen w = 1 := fun hg => h (length_eq_one_of_goLen w hg)
      simp [h, h2]
  rw [e]

/-- C8 (counterexample): a `title` record with payload `hello` for the page
`http://a/b` produces the fragment words `hello` and `b`, not only the word
`hello` of its payload. -/
theorem title_adds_path_words :
    (allFragments (processRecord plainEnv ⟨[], []⟩ ingestInit
        ⟨"title".toList, 1, "http://a/b".toList, "hello".toList⟩)).map (fun f => f.Word)
      = ["hello".toList, "b".toList] ∧
    specWords plainEnv [] "hello".toList = ["hello".toList] := by
  decide

/-- C8 (amended): for every stopword list and every payload whose
single-character tokens are one byte long (as in ASCII text), the words of the
fragments produced from a `title`, `h1`, `h2`, `h3`, `desc`, `og-desc` or `para`
record are the singular forms, in order, of the tokens of the lowercased
payload that are neither single-character nor in the stopword list, followed,
for a `title` record, by the path segments of the page URL. -/
theorem record_fragment_words (E : Env) (cfg : IngestConfig) (st : IngestState) (r : Record)
    (ht : r.token ∈ textTokens)
    (hsingle : ∀ w ∈ partitionSentence E (toLower E r.rawdata), w.length = 1 → goLen w = 1) :
    (allFragments (processRecord E cfg st r)).map (fun f => f.Word)
      = (allFragments st).map (fun f => f.Word) ++ specWords E cfg.wordlist r.rawdata
        ++ (if r.token = "title".toList then
              (extractPathSegments E (toLower E r.pageurl)).getD [] else []) := by
  rw [processRecord_words E cfg st r ht, tokenWords_eq_specWords E cfg.wordlist r.rawdata hsingle]

/-- C8 (witness): an `h1` record with payload `The Cats are Running` and the
stopwords `the`, `are` yields the words `cat`, `running` when the singular of
`cats` is `cat` and `running` is its own singular. -/
theorem record_fragment_words_witness :
    "h1".toList ∈ textTokens ∧
    (∀ w ∈ partitionSentence plainEnv (toLower plainEnv "The Cats are Running".toList),
      w.length = 1 → goLen w = 1) ∧
    (allFragments (processRecord plainEnv ⟨["the".toList, "are".toList], []⟩ ingestInit
        ⟨"h1".toList, 1, "http://a/b".toList, "The Cats are Running".toList⟩)).map
      (fun f => f.Word) = ["cat".toList, "running".toList] :=
  ⟨by decide, by decide,
    (record_fragment_words plainEnv ⟨["the".toList, "are".toList], []⟩ ingestInit
      ⟨"h1".toList, 1, "http://a/b".toList, "The Cats are Running".toList⟩ (by decide)
      (by decide)).trans (by decide)⟩

/-! ### C5: the batch boundary -/

theorem keys_mapSet {V : Type} (m : List (GoString × V)) (k : GoString) (v : V) :
    (mapSet m k v).map Prod.fst
      = if k ∈ m.map Prod.fst then m.map Prod.fst else m.map Prod.fst ++ [k] := by
  induction m with
  | nil => simp [mapSet]
  | cons p m ih =>
    obtain ⟨a, b⟩ := p
    by_cases h : a = k
    · subst h
      simp only [mapSet, if_true, List.map_cons, List.mem_cons, true_or]
    · have h2 : ¬ k = a := fun e => h e.symm
      simp only [mapSet, h, if_false, List.map_cons, ih, List.mem_cons, h2, false_or]
      split <;> simp

theorem length_mapSet {V : Type} (m : List (GoString × V)) (k : GoString) (v : V) :
    (mapSet m k v).length
      = if k ∈ m.map Prod.fst then m.length else m.length + 1 := by
  have h := congrArg List.length (keys_mapSet m k v)
  rw [List.length_map] at h
  rw [h]
  split <;> simp

theorem switchToken_lang (E : Env) (cfg : IngestConfig) (raw payload : GoString)
    (page : PageData) :
    switchToken E cfg "lang".toList raw payload page
      = some ({ page with Lang := raw }, [], 1, []) := by
  simp +decide [switchToken]

theorem switchToken_keywords (E : Env) (cfg : IngestConfig) (raw payload : GoString)
    (page : PageData) :
    switchToken E cfg "keywords".toList raw payload page
      = some (page, splitChar ',' (replaceCommaSpace payload), 1, []) := by
  simp +decide [switchToken]

theorem switchToken_link (E : Env) (cfg : IngestConfig) (raw payload : GoString)
    (page : PageData) :
    switchToken E cfg "non-webring-link".toList raw payload page
      = some (page, [], 1, [raw]) := by
  simp +decide [switchToken]

theorem switchToken_known (E : Env) (cfg : IngestConfig) (token raw payload : GoString)
    (page : PageData) (ht : token ∈ knownTokens) :
    ∃ res, switchToken E cfg token raw payload page = some res := by
  simp only [knownTokens, List.mem_cons, List.mem_singleton, List.not_mem_nil, or_false] at ht
  rcases ht with h | h | h | h | h | h | h | h | h | h <;> subst h
  · exact ⟨_, switchToken_title E cfg raw payload page⟩
  · exact ⟨_, switchToken_h1 E cfg raw payload page⟩
  · exact ⟨_, switchToken_h2 E cfg raw payload page⟩
  · exact ⟨_, switchToken_h3 E cfg raw payload page⟩
  · exact ⟨_, switchToken_desc E cfg raw payload page⟩
  · exact ⟨_, switchToken_ogdesc E cfg raw payload page⟩
  · exact ⟨_, switchToken_para E cfg raw payload page⟩
  · exact ⟨_, switchToken_lang E cfg raw payload page⟩
  · exact ⟨_, switchToken_keywords E cfg raw payload page⟩
  · exact ⟨_, switchToken_link E cfg raw payload page⟩

/-- A well-formed line writes its page into the map and then runs the
threshold check; nothing else touches the map or the list of flushes. -/
theorem ingestLine_wellFormed (E : Env) (cfg : IngestConfig) (st : IngestState)
    (line : GoString) (hw : wellFormed E line = true) (ha : st.aborted = false) :
    ∃ st2 page, ingestLine E cfg st line = flushIfFull st2 ∧
      st2.pages = mapSet st.pages (lineURL line) page ∧
      st2.flushed = st.flushed ∧ st2.aborted = false := by
  unfold wellFormed at hw
  unfold lineURL
  unfold ingestLine
  rw [ha]
  cases hp : parseLine line with
  | none => rw [hp] at hw; exact Bool.noConfusion hw
  | some r =>
    rw [hp] at hw
    simp only [Bool.and_eq_true, Bool.or_eq_true] at hw
    obtain ⟨hk, hseg⟩ := hw
    have hk2 : r.token ∈ knownTokens := by simpa using hk
    obtain ⟨res, hres⟩ := switchToken_known E cfg r.token r.rawdata (toLower E r.rawdata)
      (currentPage st.pages r) hk2
    obtain ⟨page, processed, score, links⟩ := res
    simp only [Bool.false_eq_true, if_false, processRecord, hres]
    by_cases htitle : r.token = "title".toList
    · rw [if_pos htitle]
      rcases hseg with hseg | hseg
      · simp [htitle] at hseg
      · cases hx : extractPathSegments E (toLower E r.pageurl) with
        | none => rw [hx] at hseg; exact Bool.noConfusion hseg
        | some segs => exact ⟨_, page, rfl, rfl, rfl, ha⟩
    · rw [if_neg htitle]
      exact ⟨_, page, rfl, rfl, rfl, ha⟩

theorem batchInv_step (E : Env) (cfg : IngestConfig) (seen : Finset GoString)
    (last : GoString) (st : IngestState) (line : GoString)
    (hinv : BatchInv seen last st) (hw : wellFormed E line = true)
    (hx : lineURL line ∈ seen → lineURL line = last) :
    BatchInv (insert (lineURL line) seen) (lineURL line) (ingestLine E cfg st line) := by
  obtain ⟨ha, hsub, hm, hzero, hlo, hhi⟩ := hinv
  obtain ⟨st2, page, hstep, hpages, hfl, hab⟩ := ingestLine_wellFormed E cfg st line hw ha
  have hkeys : st2.pages.map Prod.fst
      = if lineURL line ∈ st.pages.map Prod.fst then st.pages.map Prod.fst
        else st.pages.map Prod.fst ++ [lineURL line] := by
    rw [hpages]; exact keys_mapSet _ _ _
  have hlen : st2.pages.length
      = if lineURL line ∈ st.pages.map Prod.fst then st.pages.length
        else st.pages.length + 1 := by
    rw [hpages]; exact length_mapSet _ _ _
  rw [hstep]
  by_cases hseen : lineURL line ∈ seen
  · -- the record continues the block of `last`
    have hlast := hx hseen
    rw [Finset.insert_eq_of_mem hseen]
    by_cases hk : lineURL line ∈ st.pages.map Prod.fst
    · rw [if_pos hk] at hkeys hlen
      have hnf : ¬ st2.pages.length > 100 := by omega
      have hk2 : lineURL line ∈ st2.pages.map Prod.fst := by rw [hkeys]; exact hk
      have he : ¬ (last ∈ seen ∧ last ∉ st.pages.map Prod.fst) := by
        rw [← hlast]; exact fun h => h.2 hk
      rw [if_neg he] at hlo
      unfold flushIfFull
      rw [if_neg hnf]
      refine ⟨hab, ?_, by omega, ?_, ?_, ?_⟩
      · rw [hkeys]; exact hsub
      · intro h; exact absurd hk2 h.2
      · rw [if_neg (fun h => h.2 hk2), hfl, hlen]; omega
      · rw [hfl, hlen]; exact hhi
    · rw [if_neg hk] at hkeys hlen
      have he : last ∈ seen ∧ last ∉ st.pages.map Prod.fst := by
        rw [← hlast]; exact ⟨hseen, hk⟩
      have hm0 := hzero he
      rw [if_pos he] at hlo
      have hnf : ¬ st2.pages.length > 100 := by omega
      have hk2 : lineURL line ∈ st2.pages.map Prod.fst := by
        rw [hkeys]; exact List.mem_append_right _ (List.mem_singleton_self _)
      unfold flushIfFull
      rw [if_neg hnf]
      refine ⟨hab, ?_, by omega, ?_, ?_, ?_⟩
      · rw [hkeys]
        intro k hkm
        rcases List.mem_append.1 hkm with h | h
        · exact hsub k h
        · simp only [List.mem_singleton] at h; rw [h]; exact hseen
      · intro h; exact absurd hk2 h.2
      · rw [if_neg (fun h => h.2 hk2), hfl, hlen]; omega
      · rw [hfl, hlen]; omega
  · -- the record opens the block of a URL not seen before
    have hk : lineURL line ∉ st.pages.map Prod.fst := fun h => hseen (hsub _ h)
    rw [if_neg hk] at hkeys hlen
    have hcard : (insert (lineURL line) seen).card = seen.card + 1 :=
      Finset.card_insert_of_not_mem hseen
    have hlo2 : 100 * st.flushed.length + st.pages.length ≤ seen.card := by omega
    by_cases hfull : st2.pages.length > 100
    · unfold flushIfFull
      rw [if_pos hfull]
      have he : lineURL line ∈ insert (lineURL line) seen ∧
          lineURL line ∉ ([] : List (GoString × PageData)).map Prod.fst :=
        ⟨Finset.mem_insert_self _ _, by simp⟩
      refine ⟨hab, by simp, by simp, fun _ => rfl, ?_, ?_⟩
      · have e1 : (if lineURL line ∈ insert (lineURL line) seen ∧
            lineURL line ∉ ([] : List (GoString × PageData)).map Prod.fst then 1 else 0) = 1 :=
          if_pos he
        show 100 * (st2.flushed ++ [_]).length + 0 + (if lineURL line ∈ insert (lineURL line) seen ∧
            lineURL line ∉ ([] : List (GoString × PageData)).map Prod.fst then 1 else 0) ≤ _
        rw [e1]
        simp only [List.length_append, List.length_singleton, hcard, hfl]
        omega
      · simp only [List.length_append, List.length_singleton, List.length_nil, hcard, hfl]
        omega
    · unfold flushIfFull
      rw [if_neg hfull]
      have hk2 : lineURL line ∈ st2.pages.map Prod.fst := by
        rw [hkeys]; exact List.mem_append_right _ (List.mem_singleton_self _)
      refine ⟨hab, ?_, by omega, ?_, ?_, ?_⟩
      · rw [hkeys]
        intro k hkm
        rcases List.mem_append.1 hkm with h | h
        · exact Finset.mem_insert_of_mem (hsub k h)
        · simp only [List.mem_singleton] at h; rw [h]; exact Finset.mem_insert_self _ _
      · intro h; exact absurd hk2 h.2
      · rw [if_neg (fun h => h.2 hk2), hfl, hlen, hcard]; omega
      · rw [hfl, hlen, hcard]; omega

theorem contiguous_cons (x : GoString) (rest : List GoString) :
    contiguous (x :: rest) = true ↔
      x ∉ rest.dropWhile (fun y => y == x) ∧ contiguous rest = true := by
  simp [contiguous]

theorem batchInv_fold (E : Env) (cfg : IngestConfig) (lines : List GoString) :
    ∀ (seen : Finset GoString) (last : GoString) (st : IngestState),
      BatchInv seen last st →
      (∀ line ∈ lines, wellFormed E line = true) →
      contiguous (lines.map lineURL) = true →
      (∀ y ∈ seen, y ∉ (lines.map lineURL).dropWhile (fun z => z == last)) →
      ∃ last2, BatchInv (seen ∪ (lines.map lineURL).toFinset) last2
        (lines.foldl (ingestLine E cfg) st) := by
  induction lines with
  | nil =>
    intro seen last st hinv _ _ _
    exact ⟨last, by simpa using hinv⟩
  | cons line rest ih =>
    intro seen last st hinv hw hc hb
    rw [List.map_cons, contiguous_cons] at hc
    obtain ⟨hc1, hc2⟩ := hc
    have hx : lineURL line ∈ seen → lineURL line = last := by
      intro hs
      by_contra hne
      have hb1 := hb _ hs
      have hbeq : (lineURL line == last) = false := by simpa using hne
      rw [List.map_cons, List.dropWhile_cons, hbeq] at hb1
      exact hb1 (by simp)
    have hstep := batchInv_step E cfg seen last st line hinv
      (hw line (List.mem_cons_self _ _)) hx
    have hb2 : ∀ y ∈ insert (lineURL line) seen,
        y ∉ (rest.map lineURL).dropWhile (fun z => z == lineURL line) := by
      intro y hy
      rcases Finset.mem_insert.1 hy with hy | hy
      · rw [hy]; exact hc1
      · have hb1 := hb y hy
        rw [List.map_cons, List.dropWhile_cons] at hb1
        by_cases hl : lineURL line = last
        · have hbeq : (lineURL line == last) = true := by simpa using hl
          rw [hbeq] at hb1
          rw [hl]
          exact hb1
        · have hbeq : (lineURL line == last) = false := by simpa using hl
          rw [hbeq] at hb1
          intro hm
          exact hb1 (List.mem_cons_of_mem _ ((List.dropWhile_suffix _).subset hm))
    obtain ⟨last2, hfin⟩ := ih (insert (lineURL line) seen) (lineURL line) _ hstep
      (fun l hl => hw l (List.mem_cons_of_mem _ hl)) hc2 hb2
    refine ⟨last2, ?_⟩
    have e : seen ∪ (List.map lineURL (line :: rest)).toFinset
        = insert (lineURL line) seen ∪ (List.map lineURL rest).toFinset := by
      ext a
      simp only [List.map_cons, List.toFinset_cons, Finset.mem_union, Finset.mem_insert]
      tauto
    rw [e]
    exact hfin

theorem batchInv_init : BatchInv ∅ [] ingestInit := by
  refine ⟨rfl, ?_, ?_, ?_, ?_, ?_⟩ <;> simp [ingestInit]

/-- Flush counts of a stream whose records are contiguous per URL. -/
theorem flush_count_contiguous (E : Env) (cfg : IngestConfig) (lines : List GoString)
    (hw : ∀ line ∈ lines, wellFormed E line = true)
    (hc : contiguous (lines.map lineURL) = true)
    (hd : (lines.map lineURL).toFinset.card = 250) :
    (ingestLoop E cfg lines).flushed.length = 2 ∧ (ingestCalls E cfg lines).length = 3 := by
  obtain ⟨last2, hfin⟩ := batchInv_fold E cfg lines ∅ [] ingestInit batchInv_init hw hc
    (by simp)
  rw [Finset.empty_union, ] at hfin
  obtain ⟨ha, _, hm, _, hlo, hhi⟩ := hfin
  rw [hd] at hlo hhi
  have hf : (ingestLoop E cfg lines).flushed.length = 2 := by
    unfold ingestLoop
    omega
  refine ⟨hf, ?_⟩
  unfold ingestCalls
  have ha2 : (ingestLoop E cfg lines).aborted = false := ha
  simp only [ha2, Bool.false_eq_true, if_false, List.length_append, List.length_singleton, hf]

/-! ### The sample streams -/

theorem sampleURL_injective : Function.Injective sampleURL := by
  intro i j h
  unfold sampleURL at h
  have h1 := List.append_cancel_right h
  have h2 := List.append_cancel_left h1
  have hi := parseDigits_natDigits (i + 1) i (Nat.lt_succ_self _)
  have hj := parseDigits_natDigits (j + 1) j (Nat.lt_succ_self _)
  rw [h2, hj] at hi
  exact (Option.some.inj hi).symm

theorem parseLine_sampleLine (i : Nat) :
    parseLine (sampleLine i) = some ⟨"lang".toList, 1, sampleURL i, "en".toList⟩ := by
  have hsp : ' ' ∉ sampleURL i := by
    unfold sampleURL
    intro h
    rcases List.mem_append.1 h with h | h
    · rcases List.mem_append.1 h with h | h
      · revert h; decide
      · have := natDigits_digits _ _ _ h
        revert this; decide
    · revert h; decide
  have hpre : hasPrefix (sampleURL i) "http".toList = true := by
    unfold hasPrefix sampleURL
    rw [List.isPrefixOf_iff_prefix]
    exact ⟨"://h/".toList ++ natDigits (i + 1) i ++ ['x'], by simp⟩
  have htrim : trimSuffix (sampleURL i) ['/'] = sampleURL i := by
    unfold sampleURL
    rw [trimSuffix_slash_concat]
    exact if_neg (by decide)
  have h := parseLine_of_printRecord "lang".toList "en".toList (sampleURL i) 1
    (by decide) hsp hpre (by decide) (by decide)
  rw [htrim] at h
  exact h

theorem lineURL_sampleLine (i : Nat) : lineURL (sampleLine i) = sampleURL i := by
  unfold lineURL
  rw [parseLine_sampleLine]

theorem wellFormed_sampleLine (E : Env) (i : Nat) : wellFormed E (sampleLine i) = true := by
  have h1 : knownTokens.contains "lang".toList = true := by decide
  have h2 : ("lang".toList != "title".toList) = true := by decide
  unfold wellFormed
  rw [parseLine_sampleLine]
  simp only [h1, h2, Bool.true_or, Bool.and_self]

theorem map_lineURL_sample (idx : List Nat) :
    (idx.map sampleLine).map lineURL = idx.map sampleURL := by
  rw [List.map_map]
  exact List.map_congr_left (fun i _ => lineURL_sampleLine i)

theorem wellFormed_sample (E : Env) (idx : List Nat) :
    ∀ line ∈ idx.map sampleLine, wellFormed E line = true := by
  intro line hl
  obtain ⟨i, _, rfl⟩ := List.mem_map.1 hl
  exact wellFormed_sampleLine E i

theorem contiguous_of_nodup (urls : List GoString) (h : urls.Nodup) :
    contiguous urls = true := by
  induction urls with
  | nil => rfl
  | cons x rest ih =>
    rw [contiguous_cons]
    rw [List.nodup_cons] at h
    exact ⟨fun hm => h.1 ((List.dropWhile_suffix _).subset hm), ih h.2⟩

/-! ### Runs of pages not yet in the map -/

theorem ingest_fresh_run (E : Env) (cfg : IngestConfig) (L : List GoString) :
    ∀ st : IngestState, st.aborted = false →
      (∀ line ∈ L, wellFormed E line = true) →
      (L.map lineURL).Nodup →
      (∀ line ∈ L, lineURL line ∉ st.pages.map Prod.fst) →
      st.pages.length + L.length ≤ 100 →
      (L.foldl (ingestLine E cfg) st).pages.map Prod.fst
          = st.pages.map Prod.fst ++ L.map lineURL ∧
        (L.foldl (ingestLine E cfg) st).flushed = st.flushed ∧
        (L.foldl (ingestLine E cfg) st).aborted = false := by
  induction L with
  | nil => intro st ha _ _ _ _; simp [ha]
  | cons line rest ih =>
    intro st ha hw hnd hfresh hlen
    obtain ⟨st2, page, hstep, hpages, hfl, hab⟩ :=
      ingestLine_wellFormed E cfg st line (hw line (List.mem_cons_self _ _)) ha
    have hk := hfresh line (List.mem_cons_self _ _)
    have hkeys : st2.pages.map Prod.fst = st.pages.map Prod.fst ++ [lineURL line] := by
      rw [hpages, keys_mapSet, if_neg hk]
    have hlen2 : st2.pages.length = st.pages.length + 1 := by
      rw [hpages, length_mapSet, if_neg hk]
    simp only [List.length_cons] at hlen
    have hnf : ¬ st2.pages.length > 100 := by omega
    have hst : ingestLine E cfg st line = st2 := by
      rw [hstep]; unfold flushIfFull; rw [if_neg hnf]
    rw [List.map_cons, List.nodup_cons] at hnd
    have hfresh2 : ∀ l ∈ rest, lineURL l ∉ st2.pages.map Prod.fst := by
      intro l hl hm
      rw [hkeys] at hm
      rcases List.mem_append.1 hm with hm | hm
      · exact hfresh l (List.mem_cons_of_mem _ hl) hm
      · simp only [List.mem_singleton] at hm
        exact hnd.1 (hm ▸ List.mem_map_of_mem _ hl)
    obtain ⟨r1, r2, r3⟩ := ih st2 hab (fun l hl => hw l (List.mem_cons_of_mem _ hl)) hnd.2
      hfresh2 (by omega)
    rw [List.foldl_cons, hst]
    refine ⟨?_, ?_, r3⟩
    · rw [r1, hkeys]; simp
    · rw [r2, hfl]

theorem ingest_fresh_block (E : Env) (cfg : IngestConfig) (L : List GoString)
    (st : IngestState) (ha : st.aborted = false) (hp : st.pages = [])
    (hw : ∀ line ∈ L, wellFormed E line = true) (hnd : (L.map lineURL).Nodup)
    (hlen : L.length = 101) :
    (L.foldl (ingestLine E cfg) st).pages = [] ∧
      (L.foldl (ingestLine E cfg) st).flushed.length = st.flushed.length + 1 ∧
      (L.foldl (ingestLine E cfg) st).aborted = false := by
  rcases List.eq_nil_or_concat L with h0 | ⟨L1, line, hL⟩
  · rw [h0] at hlen; simp at hlen
  · rw [List.concat_eq_append] at hL
    subst hL
    rw [List.map_append, List.nodup_append] at hnd
    obtain ⟨hnd1, _, hdisj⟩ := hnd
    simp only [List.length_append, List.length_singleton] at hlen
    obtain ⟨r1, r2, r3⟩ := ingest_fresh_run E cfg L1 st ha
      (fun l hl => hw l (List.mem_append_left _ hl)) hnd1
      (by intro l _; rw [hp]; simp) (by rw [hp]; simp; omega)
    rw [hp] at r1
    simp only [List.map_nil, List.nil_append] at r1
    obtain ⟨st2, page, hstep, hpages, hfl, hab⟩ :=
      ingestLine_wellFormed E cfg (L1.foldl (ingestLine E cfg) st) line
        (hw line (List.mem_append_right _ (List.mem_singleton_self _))) r3
    have hk : lineURL line ∉ (L1.foldl (ingestLine E cfg) st).pages.map Prod.fst := by
      rw [r1]
      intro hm
      exact hdisj hm (by simp)
    have hlen2 : st2.pages.length = 101 := by
      rw [hpages, length_mapSet, if_neg hk]
      have := congrArg List.length r1
      simp only [List.length_map] at this
      omega
    have hfull : st2.pages.length > 100 := by omega
    rw [List.foldl_append, List.foldl_cons, List.foldl_nil, hstep]
    unfold flushIfFull
    rw [if_pos hfull]
    refine ⟨rfl, ?_, hab⟩
    simp only [List.length_append, List.length_singleton, hfl, r2]

theorem ingestCalls_length (E : Env) (cfg : IngestConfig) (lines : List GoString)
    (ha : (ingestLoop E cfg lines).aborted = false) :
    (ingestCalls E cfg lines).length = (ingestLoop E cfg lines).flushed.length + 1 := by
  unfold ingestCalls
  simp only [ha, Bool.false_eq_true, if_false, List.length_append, List.length_singleton]

/-- A source file that passes the first-line read goes on to the scanner
loop. -/
theorem Ingest_of_newline (E : Env) (cfg : IngestConfig) (src : SourceFile)
    (hn : src.hasNewline = true) : Ingest E cfg src = ingestCalls E cfg src.lines := by
  unfold Ingest
  rw [if_pos hn]

/-- A source file without a newline (an empty file, or a single line that is
not newline-terminated) fails the first-line read: `ingestBatch` is never
called. -/
theorem Ingest_no_newline (E : Env) (cfg : IngestConfig) (src : SourceFile)
    (hn : src.hasNewline = false) : Ingest E cfg src = [] := by
  unfold Ingest
  rw [hn]
  rfl

/-- A source file that yields records for two or more page URLs has a
newline. -/
theorem hasNewline_of_card (src : SourceFile) (n : Nat) (h2 : 2 ≤ n)
    (hd : (src.lines.map lineURL).toFinset.card = n) : src.hasNewline = true := by
  apply src.sound
  have h := List.toFinset_card_le (src.lines.map lineURL)
  rw [List.length_map] at h
  omega

theorem card_sample_urls (extra : List Nat) (h : ∀ i ∈ extra, i < 250) :
    (((List.range 250 ++ extra).map sampleLine).map lineURL).toFinset.card = 250 := by
  rw [map_lineURL_sample, List.map_append, List.toFinset_append]
  have hsub : (extra.map sampleURL).toFinset ⊆ ((List.range 250).map sampleURL).toFinset := by
    intro u hu
    rw [List.mem_toFinset] at hu ⊢
    obtain ⟨i, hi, rfl⟩ := List.mem_map.1 hu
    exact List.mem_map_of_mem _ (List.mem_range.2 (h i hi))
  rw [Finset.union_eq_left.2 hsub,
    List.toFinset_card_of_nodup ((List.nodup_range 250).map sampleURL_injective)]
  simp

theorem stream303_flushes (E : Env) (cfg : IngestConfig) :
    (ingestLoop E cfg stream303).flushed.length = 3 ∧
      (ingestLoop E cfg stream303).aborted = false := by
  have hsplit : List.range 250 ++ List.range 53
      = List.range' 0 101 ++ (List.range' 101 101 ++ (List.range' 202 48 ++ List.range 53)) := by
    have e1 : List.range' 0 101 ++ List.range' 101 149 = List.range' 0 250 :=
      List.range'_append_1 0 101 149
    have e2 : List.range' 101 101 ++ List.range' 202 48 = List.range' 101 149 :=
      List.range'_append_1 101 101 48
    rw [List.range_eq_range' 250, ← e1, ← e2]
    simp only [List.append_assoc]
  have hn1 : (List.range' 0 101).Nodup := List.nodup_range' 0 101
  have hn2 : (List.range' 101 101).Nodup := List.nodup_range' 101 101
  have hn3 : (List.range' 202 48 ++ List.range 53).Nodup := by
    rw [List.nodup_append]
    refine ⟨List.nodup_range' 202 48, List.nodup_range 53, ?_⟩
    intro a h1 h2
    rw [List.mem_range'_1] at h1
    rw [List.mem_range] at h2
    omega
  have block : ∀ (idx : List Nat) (st : IngestState), st.aborted = false → st.pages = [] →
      idx.Nodup → idx.length = 101 →
      ((idx.map sampleLine).foldl (ingestLine E cfg) st).pages = [] ∧
      ((idx.map sampleLine).foldl (ingestLine E cfg) st).flushed.length
        = st.flushed.length + 1 ∧
      ((idx.map sampleLine).foldl (ingestLine E cfg) st).aborted = false := by
    intro idx st ha hp hnd hlen
    refine ingest_fresh_block E cfg _ st ha hp (wellFormed_sample E idx) ?_ (by simpa using hlen)
    rw [map_lineURL_sample]
    exact hnd.map sampleURL_injective
  unfold ingestLoop stream303
  rw [hsplit, List.map_append, List.map_append, List.foldl_append, List.foldl_append]
  obtain ⟨p1, f1, a1⟩ := block (List.range' 0 101) ingestInit rfl rfl hn1 (by simp)
  obtain ⟨p2, f2, a2⟩ := block (List.range' 101 101) _ a1 p1 hn2 (by simp)
  obtain ⟨_, f3, a3⟩ := block (List.range' 202 48 ++ List.range 53) _ a2 p2 hn3 (by simp)
  refine ⟨?_, a3⟩
  rw [f3, f2, f1]
  rfl

/-- C5 (counterexample): `stream303` has one well-formed `lang` record for each
of 250 distinct page URLs followed by a second record for the first 53 of
them; its URLs form a set of exactly 250, and `Ingest` calls `ingestBatch` 4
times (three threshold flushes and the final one). -/
theorem batch_boundary_revisited_urls :
    (∀ line ∈ source303.lines, wellFormed plainEnv line = true) ∧
    (source303.lines.map lineURL).toFinset.card = 250 ∧
    (ingestLoop plainEnv ⟨[], []⟩ source303.lines).flushed.length = 3 ∧
    (Ingest plainEnv ⟨[], []⟩ source303).length = 4 := by
  have h := stream303_flushes plainEnv ⟨[], []⟩
  refine ⟨wellFormed_sample plainEnv _, ?_, h.1, ?_⟩
  · exact card_sample_urls (List.range 53) (fun i hi => by
      rw [List.mem_range] at hi; omega)
  · rw [Ingest_of_newline _ _ source303 rfl]
    exact (ingestCalls_length _ _ stream303 h.2).trans (congrArg (· + 1) h.1)

/-- C5 (amended): for every input stream of well-formed records with
recognised tokens in which the records of each page URL are contiguous and
whose canonical page URLs form a set of exactly 250 distinct URLs, `Ingest`
calls `ingestBatch` exactly 3 times: two flushes triggered by the page-count
threshold and the final flush at end of stream. -/
theorem batch_boundary_contiguous (E : Env) (cfg : IngestConfig) (src : SourceFile)
    (hw : ∀ line ∈ src.lines, wellFormed E line = true)
    (hc : contiguous (src.lines.map lineURL) = true)
    (hd : (src.lines.map lineURL).toFinset.card = 250) :
    (ingestLoop E cfg src.lines).flushed.length = 2 ∧ (Ingest E cfg src).length = 3 := by
  rw [Ingest_of_newline E cfg src (hasNewline_of_card src 250 (by omega) hd)]
  exact flush_count_contiguous E cfg src.lines hw hc hd

/-- C5 (witness): `stream250`, one `lang` record for each of 250 distinct page
URLs, is flushed twice by the threshold and once at the end. -/
theorem batch_boundary_contiguous_witness :
    (∀ line ∈ source250.lines, wellFormed plainEnv line = true) ∧
    contiguous (source250.lines.map lineURL) = true ∧
    (source250.lines.map lineURL).toFinset.card = 250 ∧
    (ingestLoop plainEnv ⟨[], []⟩ source250.lines).flushed.length = 2 ∧
    (Ingest plainEnv ⟨[], []⟩ source250).length = 3 :=
  have hw : ∀ line ∈ source250.lines, wellFormed plainEnv line = true :=
    wellFormed_sample plainEnv (List.range 250)
  have hc : contiguous (source250.lines.map lineURL) = true :=
    contiguous_of_nodup _ (by
      show (stream250.map lineURL).Nodup
      unfold stream250
      rw [map_lineURL_sample]
      exact (List.nodup_range 250).map sampleURL_injective)
  have hd : (source250.lines.map lineURL).toFinset.card = 250 := by
    have := card_sample_urls [] (by simp)
    show (stream250.map lineURL).toFinset.card = 250
    simpa [stream250] using this
  ⟨hw, hc, hd, batch_boundary_contiguous plainEnv ⟨[], []⟩ source250 hw hc hd⟩

/-! ### C11: the `para` rule -/

theorem mapGet?_mapSet_self {V : Type} (m : List (GoString × V)) (k : GoString) (v : V) :
    mapGet? (mapSet m k v) k = some v := by
  rw [mapGet?_mapSet, if_pos rfl]

theorem processRecord_of_switch (E : Env) (cfg : IngestConfig) (st : IngestState) (r : Record)
    (page : PageData) (processed : List GoString) (score : Int) (links : List GoString)
    (hsw : switchToken E cfg r.token r.rawdata (toLower E r.rawdata) (currentPage st.pages r)
      = some (page, processed, score, links))
    (hnt : r.token ≠ "title".toList) :
    processRecord E cfg st r = flushIfFull { st with
      pages := mapSet st.pages r.pageurl page
      externalLinks := st.externalLinks ++ links
      count := st.count + (filterCommonWords E processed cfg.wordlist).length
      batch := st.batch ++ (filterCommonWords E processed cfg.wordlist).map
        (fun word => ⟨word, r.pageurl, score⟩) } := by
  unfold processRecord
  simp only [hsw, if_neg hnt]

/-- C11 (counterexample): after an `og-desc` record of 30 bytes, a `para`
record of 21 bytes that passes the about-heuristic filter has
`10*len(new) >= 7*len(About)` (210 and 210), yet About and AboutSource stay
those of the `og-desc` record. -/
theorem para_ratio_boundary :
    10 * goLen "bbbbbbbbbbbbbbbbbbbbb".toList ≥ 7 * goLen "aaaaaaaaaaaaaaaaaaaaaaaaaaaaaa".toList ∧
    performAboutHeuristic plainEnv [] (toLower plainEnv "bbbbbbbbbbbbbbbbbbbbb".toList) = true ∧
    (ingestLoop plainEnv ⟨[], []⟩
        ["og-desc aaaaaaaaaaaaaaaaaaaaaaaaaaaaaa http://a 1".toList,
         "para bbbbbbbbbbbbbbbbbbbbb http://a 1".toList]).pages.map
      (fun p => (p.2.About, p.2.AboutSource))
      = [("aaaaaaaaaaaaaaaaaaaaaaaaaaaaaa".toList, "og-desc".toList)] := by
  decide

/-- C11 (amended): for every page state and `para` record, the page written
to the map (before the threshold check) has About set to the raw payload and
AboutSource to `para` exactly when (the current AboutSource is not `og-desc`,
or `10*len(new) > 7*len(About)`, strictly) and the lowercased text passes the
about-heuristic filter; otherwise it is the current page unchanged. -/
theorem para_rule (E : Env) (cfg : IngestConfig) (st : IngestState) (d : Int)
    (u raw : GoString) :
    ∃ st2, processRecord E cfg st ⟨"para".toList, d, u, raw⟩ = flushIfFull st2 ∧
      mapGet? st2.pages u = some
        (if ((currentPage st.pages ⟨"para".toList, d, u, raw⟩).AboutSource ≠ "og-desc".toList ∨
              goLen raw * 10 > goLen (currentPage st.pages ⟨"para".toList, d, u, raw⟩).About * 7) ∧
            performAboutHeuristic E cfg.heuristics (toLower E raw) = true then
          { currentPage st.pages ⟨"para".toList, d, u, raw⟩ with
            About := raw, AboutSource := "para".toList }
        else currentPage st.pages ⟨"para".toList, d, u, raw⟩) := by
  have hnt : ¬ ("para".toList = "title".toList) := by decide
  refine ⟨_, processRecord_of_switch E cfg st ⟨"para".toList, d, u, raw⟩ _ _ _ _
    (switchToken_para E cfg raw (toLower E raw) _) hnt, ?_⟩
  · simp only [mapGet?_mapSet_self]
    congr 1
    by_cases h1 : (currentPage st.pages ⟨"para".toList, d, u, raw⟩).AboutSource ≠ "og-desc".toList ∨
        goLen raw * 10 > goLen (currentPage st.pages ⟨"para".toList, d, u, raw⟩).About * 7
    · by_cases h2 : performAboutHeuristic E cfg.heuristics (toLower E raw) = true
      · rw [if_pos h1, if_pos h2, if_pos ⟨h1, h2⟩]
      · rw [if_pos h1, if_neg h2, if_neg (fun h => h2 h.2)]
    · rw [if_neg h1, if_neg (fun h => h1 h.1)]

/-! ### C12: `non-webring-link` records -/

theorem mapSet_of_mapGet? {V : Type} (m : List (GoString × V)) (k : GoString) (v : V)
    (h : mapGet? m k = some v) : mapSet m k v = m := by
  induction m with
  | nil => simp [mapGet?] at h
  | cons p m ih =>
    obtain ⟨a, b⟩ := p
    by_cases hk : a = k
    · subst hk
      simp only [mapGet?, if_true, Option.some.injEq] at h
      simp only [mapSet, if_true, h]
    · simp only [mapGet?, hk, if_false] at h
      simp only [mapSet, hk, if_false, ih h]

/-- C12 (counterexample): from the empty state, a `non-webring-link` record
for the page `http://a/b` creates a PageData for that URL. -/
theorem external_link_creates_page :
    parseLine "non-webring-link https://x.y http://a/b 3".toList
      = some ⟨"non-webring-link".toList, 3, "http://a/b".toList, "https://x.y".toList⟩ ∧
    (ingestLoop plainEnv ⟨[], []⟩ ["non-webring-link https://x.y http://a/b 3".toList]).pages
      = [("http://a/b".toList, ⟨"http://a/b".toList, 3, [], [], [], []⟩)] := by
  decide

/-- C12 (amended): for every ingest state and every `non-webring-link`
record, processing it appends the raw payload to the external-links buffer,
adds no fragment, and writes the current page of the record's URL into the
page map: a PageData already stored stays as it is, and a URL without one gets
a new PageData holding only the URL and the depth; the threshold check
follows. -/
theorem external_link_record (E : Env) (cfg : IngestConfig) (st : IngestState) (d : Int)
    (u raw : GoString) :
    processRecord E cfg st ⟨"non-webring-link".toList, d, u, raw⟩
      = flushIfFull { st with
          pages := mapSet st.pages u (currentPage st.pages ⟨"non-webring-link".toList, d, u, raw⟩)
          externalLinks := st.externalLinks ++ [raw] } ∧
    mapSet st.pages u (currentPage st.pages ⟨"non-webring-link".toList, d, u, raw⟩)
      = (match mapGet? st.pages u with
         | some _ => st.pages
         | none => mapSet st.pages u ⟨u, d, [], [], [], []⟩) := by
  have hnt : ¬ ("non-webring-link".toList = "title".toList) := by decide
  constructor
  · rw [processRecord_of_switch E cfg st ⟨"non-webring-link".toList, d, u, raw⟩ _ _ _ _
      (switchToken_link E cfg raw (toLower E raw) _) hnt]
    simp only [filterCommonWords, List.foldl_nil, List.length_nil, Nat.add_zero, List.map_nil,
      List.append_nil]
  · unfold currentPage
    cases h : mapGet? st.pages u with
    | none => rfl
    | some p => exact mapSet_of_mapGet? _ _ _ h

/-! ### C13: path segments and repeated `title` records -/

/-- C13 (failing input): two `title` records for the page `http://a/b` append
the score-2 path-segment fragment `b` of that URL twice. -/
theorem path_segments_repeated :
    extractPathSegments plainEnv (toLower plainEnv "http://a/b".toList) = some ["b".toList] ∧
    (allFragments (ingestLoop plainEnv ⟨[], []⟩
        ["title hello http://a/b 1".toList, "title hello http://a/b 1".toList])).filter
      (fun f => f.Score == 2)
      = [⟨"b".toList, "http://a/b".toList, 2⟩, ⟨"b".toList, "http://a/b".toList, 2⟩] := by
  decide

/-! ### C14: which members are pathsites -/

/-- C14 (failing input): the member `https://host/`, whose path is `/`, is
returned by `getDomains` among the pathsites. -/
theorem root_path_is_pathsite :
    plainParse "https://host/".toList = some ⟨"host".toList, "/".toList⟩ ∧
    (getDomains plainEnv [⟨"https://host/".toList, 1⟩]).2 = ["https://host/".toList] := by
  decide

/-! ### C15: cleanText -/

/-- C15 (failing input): `cleanText` leaves the tab of `a<TAB>b` in place,
although a tab is white space other than U+0020. -/
theorem cleanText_keeps_tab :
    cleanText "a\tb".toList = "a\tb".toList ∧ isSpace '\t' = true ∧
    cleanText " a \n  b ".toList = "a b".toList := by
  decide

/-! ### C16: one-character words -/

/-- C16 (failing input): the word `é`, one character of two bytes, is not
dropped by `filterCommonWords`, while the one-byte word `a` is. -/
theorem non_ascii_letter_kept :
    "é".toList.length = 1 ∧ goLen "é".toList = 2 ∧
    filterCommonWords plainEnv ["é".toList, "a".toList] [] = [plainSingular "é".toList] := by
  decide

/-! ### C17: members that share a hostname -/

/-- C17 (failing input): with the members `https://tilde.town/~a` and
`https://tilde.town/~b`, both pathsites, the link `https://tilde.town/~b/page`
has the second member as a literal prefix and is not handed to the queue. -/
theorem shared_host_subtree_blocked :
    (getDomains plainEnv
        [⟨"https://tilde.town/~a".toList, 1⟩, ⟨"https://tilde.town/~b".toList, 1⟩]).2
      = ["https://tilde.town/~a".toList, "https://tilde.town/~b".toList] ∧
    hasPrefix "https://tilde.town/~b/page".toList "https://tilde.town/~b".toList = true ∧
    findPathsite ["https://tilde.town/~a".toList, "https://tilde.town/~b".toList]
      "tilde.town".toList = "https://tilde.town/~a".toList ∧
    linkHandlerEnqueues plainEnv
      ["https://tilde.town/~a".toList, "https://tilde.town/~b".toList]
      "https://tilde.town/~b/page".toList = false := by
  decide

/-! ### C18: fetches of graph documents -/

/-- C18 (failing input): when the bootstrap document `https://boot/graph.json`
lists itself among its Hyphae, `Precrawl` requests it twice. -/
theorem bootstrap_fetched_twice :
    precrawlFetched plainEnv []
      (fun url =>
        if url = "https://boot/graph.json".toList then
          .answer 200 (some ⟨["https://site.example".toList],
            ["https://boot/graph.json".toList], [], []⟩)
        else .failed)
      "https://boot/graph.json".toList 5
      = ["https://boot/graph.json".toList, "https://boot/graph.json".toList] := by
  decide

/-! ### C19: the depth of the printed lines -/

theorem sporeStep_printed (E : Env) (BANNED : List GoString) (depth : Nat)
    (st : PrecrawlState) (item : GoString) :
    ∃ new, (sporeStep E BANNED depth st item).printed = st.printed ++ new ∧
      ∀ l ∈ new, l.2 = depth := by
  simp only [sporeStep]
  cases hp : E.urlParse (getLink item) with
  | none => exact ⟨[], by simp, by simp⟩
  | some u =>
    simp only
    by_cases hc : (find BANNED u.hostname || find st.alreadyCrawled (getLink item)
        || find st.seenDomains (normalizeDomain E (getLink item))) = true
    · rw [if_pos hc]; exact ⟨[], by simp, by simp⟩
    · rw [if_neg hc]
      exact ⟨[(getLink item, depth)], rfl, by simp⟩

theorem foldl_sporeStep_printed (E : Env) (BANNED : List GoString) (depth : Nat)
    (spores : List GoString) (st : PrecrawlState) :
    ∃ new, (spores.foldl (sporeStep E BANNED depth) st).printed = st.printed ++ new ∧
      ∀ l ∈ new, l.2 = depth := by
  induction spores generalizing st with
  | nil => exact ⟨[], by simp, by simp⟩
  | cons s spores ih =>
    obtain ⟨n1, h1, d1⟩ := sporeStep_printed E BANNED depth st s
    obtain ⟨n2, h2, d2⟩ := ih (sporeStep E BANNED depth st s)
    refine ⟨n1 ++ n2, ?_, ?_⟩
    · rw [List.foldl_cons, h2, h1, List.append_assoc]
    · intro l hl
      rcases List.mem_append.1 hl with h | h
      · exact d1 l h
      · exact d2 l h

theorem hyphaStep_printed (E : Env) (BANNED : List GoString) (fetch : GoString → Response)
    (depth : Nat) (acc : PrecrawlState × List GoString) (link : GoString) :
    ∃ new, (hyphaStep E BANNED fetch depth acc link).1.printed = acc.1.printed ++ new ∧
      ∀ l ∈ new, l.2 = depth := by
  unfold hyphaStep
  split
  · exact ⟨[], by simp, by simp⟩
  · simp only
    split
    · exact ⟨[], by simp, by simp⟩
    · exact ⟨[], by simp, by simp⟩
    · exact foldl_sporeStep_printed E BANNED depth _ _

theorem foldl_hyphaStep_printed (E : Env) (BANNED : List GoString)
    (fetch : GoString → Response) (depth : Nat) (level : List GoString)
    (acc : PrecrawlState × List GoString) :
    ∃ new, (level.foldl (hyphaStep E BANNED fetch depth) acc).1.printed
        = acc.1.printed ++ new ∧ ∀ l ∈ new, l.2 = depth := by
  induction level generalizing acc with
  | nil => exact ⟨[], by simp, by simp⟩
  | cons h level ih =>
    obtain ⟨n1, h1, d1⟩ := hyphaStep_printed E BANNED fetch depth acc h
    obtain ⟨n2, h2, d2⟩ := ih (hyphaStep E BANNED fetch depth acc h)
    refine ⟨n1 ++ n2, ?_, ?_⟩
    · rw [List.foldl_cons, h2, h1, List.append_assoc]
    · intro l hl
      rcases List.mem_append.1 hl with h | h
      · exact d1 l h
      · exact d2 l h

/-- One more level of the loop only adds lines, all at the depth of that
level. -/
theorem precrawlLoop_succ (E : Env) (BANNED : List GoString) (fetch : GoString → Response)
    (fuel : Nat) :
    ∀ (depth : Nat) (st : PrecrawlState) (level : List GoString),
      ∃ new, (precrawlLoop E BANNED fetch (fuel + 1) depth st level).printed
          = (precrawlLoop E BANNED fetch fuel depth st level).printed ++ new ∧
        ∀ l ∈ new, l.2 = depth + fuel + 1 := by
  induction fuel with
  | zero =>
    intro depth st level
    by_cases he : level.isEmpty = true
    · exact ⟨[], by simp [precrawlLoop, he], by simp⟩
    · obtain ⟨new, h1, d1⟩ :=
        foldl_hyphaStep_printed E BANNED fetch (depth + 1) level (st, [])
      exact ⟨new, by simp only [precrawlLoop, he]; exact h1, d1⟩
  | succ fuel ih =>
    intro depth st level
    by_cases he : level.isEmpty = true
    · refine ⟨[], ?_, by simp⟩
      have e1 : precrawlLoop E BANNED fetch (fuel + 1 + 1) depth st level = st := by
        rw [precrawlLoop]; simp only [he, if_true]
      have e2 : precrawlLoop E BANNED fetch (fuel + 1) depth st level = st := by
        rw [precrawlLoop]; simp only [he, if_true]
      rw [e1, e2, List.append_nil]
    · obtain ⟨new, h1, d1⟩ := ih (depth + 1)
        (level.foldl (hyphaStep E BANNED fetch (depth + 1)) (st, [])).1
        (level.foldl (hyphaStep E BANNED fetch (depth + 1)) (st, [])).2
      refine ⟨new, ?_, ?_⟩
      · have e1 : precrawlLoop E BANNED fetch (fuel + 1 + 1) depth st level
            = precrawlLoop E BANNED fetch (fuel + 1) (depth + 1)
                (level.foldl (hyphaStep E BANNED fetch (depth + 1)) (st, [])).1
                (level.foldl (hyphaStep E BANNED fetch (depth + 1)) (st, [])).2 := by
          rw [precrawlLoop]; simp only [he, Bool.false_eq_true, if_false]
        have e2 : precrawlLoop E BANNED fetch (fuel + 1) depth st level
            = precrawlLoop E BANNED fetch fuel (depth + 1)
                (level.foldl (hyphaStep E BANNED fetch (depth + 1)) (st, [])).1
                (level.foldl (hyphaStep E BANNED fetch (depth + 1)) (st, [])).2 := by
          rw [precrawlLoop]; simp only [he, Bool.false_eq_true, if_false]
        rw [e1, e2, h1]
      · intro l hl
        rw [d1 l hl]
        omega

/-- The lines of a run are those of the loop started after the bootstrap
Spores, which all carry depth 1. -/
theorem precrawlOutput_eq_loop (E : Env) (BANNED : List GoString)
    (fetch : GoString → Response) (url : GoString) :
    ∃ st1 level, (∀ l ∈ st1.printed, l.2 = 1) ∧
      ∀ fuel, precrawlOutput E BANNED fetch url fuel
        = (precrawlLoop E BANNED fetch fuel 1 st1 level).printed := by
  have hstop : ∀ fuel, (precrawlLoop E BANNED fetch fuel 1 ⟨[], [], [], [], [url]⟩ []).printed
      = [] := by
    intro fuel
    cases fuel with
    | zero => rfl
    | succ n => simp [precrawlLoop]
  cases hf : fetch url with
  | failed =>
    refine ⟨⟨[], [], [], [], [url]⟩, [], by simp, fun fuel => ?_⟩
    rw [hstop]
    simp [precrawlOutput, Precrawl, hf]
  | answer status doc =>
    by_cases hs : status = 200
    · cases doc with
      | none =>
        refine ⟨⟨[], [], [], [], [url]⟩, [], by simp, fun fuel => ?_⟩
        rw [hstop]
        simp [precrawlOutput, Precrawl, hf, hs]
      | some mushroom =>
        obtain ⟨new, h1, d1⟩ :=
          foldl_sporeStep_printed E BANNED 1 mushroom.Spores ⟨[], [], [], [], [url]⟩
        refine ⟨mushroom.Spores.foldl (sporeStep E BANNED 1) ⟨[], [], [], [], [url]⟩,
          mushroom.Hyphae.foldl
            (fun cur item =>
              if !find (mushroom.Spores.foldl (sporeStep E BANNED 1)
                  ⟨[], [], [], [], [url]⟩).exploredHyphae (getLink item)
              then cur ++ [getLink item] else cur) [],
          ?_, fun fuel => ?_⟩
        · intro l hl
          rw [h1] at hl
          exact d1 l (by simpa using hl)
        · simp only [precrawlOutput, Precrawl, hf, hs, ne_eq, not_true_eq_false, if_false]
    · refine ⟨⟨[], [], [], [], [url]⟩, [], by simp, fun fuel => ?_⟩
      rw [hstop]
      simp [precrawlOutput, Precrawl, hf, hs]

/-- C19: for every fetch oracle, the lines printed for the Spores of the
bootstrap document (the run cut before the first level) carry depth 1; the
`k+1`-th level of Hyphae only appends lines, each of depth `k+2`, whatever the
number of nodes in the level and whichever fetches or decodes fail; hence the
depths of the printed lines are non-decreasing in output order. -/
theorem precrawl_depth_per_level (E : Env) (BANNED : List GoString)
    (fetch : GoString → Response) (url : GoString) :
    (∀ l ∈ precrawlOutput E BANNED fetch url 0, l.2 = 1) ∧
    (∀ k, ∃ new, precrawlOutput E BANNED fetch url (k + 1)
        = precrawlOutput E BANNED fetch url k ++ new ∧ ∀ l ∈ new, l.2 = k + 2) ∧
    (∀ fuel, ((precrawlOutput E BANNED fetch url fuel).map Prod.snd).Pairwise
      (fun a b => a ≤ b)) := by
  obtain ⟨st1, level, hboot, hout⟩ := precrawlOutput_eq_loop E BANNED fetch url
  have h0 : ∀ l ∈ precrawlOutput E BANNED fetch url 0, l.2 = 1 := by
    intro l hl
    rw [hout 0] at hl
    exact hboot l hl
  have hstep : ∀ k, ∃ new, precrawlOutput E BANNED fetch url (k + 1)
      = precrawlOutput E BANNED fetch url k ++ new ∧ ∀ l ∈ new, l.2 = k + 2 := by
    intro k
    obtain ⟨new, h1, d1⟩ := precrawlLoop_succ E BANNED fetch k 1 st1 level
    refine ⟨new, by rw [hout (k + 1), hout k, h1], fun l hl => ?_⟩
    rw [d1 l hl]
    omega
  refine ⟨h0, hstep, ?_⟩
  have hsorted : ∀ fuel, ((precrawlOutput E BANNED fetch url fuel).map Prod.snd).Pairwise
      (fun a b => a ≤ b) ∧ ∀ l ∈ precrawlOutput E BANNED fetch url fuel, l.2 ≤ fuel + 1 := by
    intro fuel
    induction fuel with
    | zero =>
      refine ⟨?_, fun l hl => by rw [h0 l hl]⟩
      rw [List.pairwise_map]
      exact List.pairwise_of_forall_mem_list (fun a ha b hb => by rw [h0 a ha, h0 b hb])
    | succ k ih =>
      obtain ⟨new, h1, d1⟩ := hstep k
      rw [h1]
      refine ⟨?_, ?_⟩
      · rw [List.map_append, List.pairwise_append]
        refine ⟨ih.1, ?_, ?_⟩
        · rw [List.pairwise_map]
          exact List.pairwise_of_forall_mem_list (fun a ha b hb => by rw [d1 a ha, d1 b hb])
        · intro a ha b hb
          obtain ⟨la, hla, rfl⟩ := List.mem_map.1 ha
          obtain ⟨lb, hlb, rfl⟩ := List.mem_map.1 hb
          have := ih.2 la hla
          rw [d1 lb hlb]
          omega
      · intro l hl
        rcases List.mem_append.1 hl with h | h
        · have := ih.2 l h; omega
        · rw [d1 l h]
  exact fun fuel => (hsorted fuel).1

/-! ### C20: word sub-batches -/

theorem word_slice_eq (batch : List SearchFragment) (i : Nat) :
    (batch.take (if i + 3000 > batch.length then batch.length else i + 3000)).drop i
      = (batch.drop i).take 3000 := by
  rw [List.drop_take]
  by_cases h : i + 3000 > batch.length
  · rw [if_pos h, List.take_of_length_le (by simp), List.take_of_length_le (by simp; omega)]
  · rw [if_neg h]
    congr 1
    omega

theorem wordBatches_done (batch : List SearchFragment) (fuel i : Nat)
    (h : ¬ i < batch.length) : wordBatches batch fuel i = some [] := by
  cases fuel with
  | zero => simp [wordBatches, h]
  | succ n => simp [wordBatches, h]

/-- With enough iterations the loop ends, and its slices partition the rest
of the list into runs of 3000 with a shorter last one. -/
theorem wordBatches_spec (batch : List SearchFragment) (fuel : Nat) :
    ∀ i, batch.length ≤ i + fuel →
      ∃ slices, wordBatches batch fuel i = some slices ∧
        slices.flatten = batch.drop i ∧
        (∀ s ∈ slices, s ≠ [] ∧ s.length ≤ 3000) ∧
        (∀ s ∈ slices.dropLast, s.length = 3000) := by
  induction fuel with
  | zero =>
    intro i h
    have hi : ¬ i < batch.length := by omega
    refine ⟨[], wordBatches_done batch 0 i hi, ?_, by simp, by simp⟩
    rw [List.drop_eq_nil_of_le (by omega)]
    rfl
  | succ fuel ih =>
    intro i h
    by_cases hi : i < batch.length
    · obtain ⟨rest, hrest, hflat, hsize, hfull⟩ := ih (i + 3000) (by omega)
      refine ⟨(batch.drop i).take 3000 :: rest, ?_, ?_, ?_, ?_⟩
      · rw [wordBatches, if_pos hi]
        simp only [hrest, word_slice_eq]
      · rw [List.flatten_cons, hflat, ← List.drop_drop, List.take_append_drop]
      · intro s hs
        rcases List.mem_cons.1 hs with hs | hs
        · subst hs
          refine ⟨?_, by simp⟩
          intro he
          have := congrArg List.length he
          simp at this
          omega
        · exact hsize s hs
      · intro s hs
        cases rest with
        | nil => simp at hs
        | cons r rest =>
          rw [List.dropLast_cons_of_ne_nil (by simp)] at hs
          rcases List.mem_cons.1 hs with hs | hs
          · have hlt : i + 3000 < batch.length := by
              by_contra hc
              rw [wordBatches_done batch fuel (i + 3000) hc] at hrest
              simp at hrest
            subst hs
            simp
            omega
          · exact hfull s hs
    · refine ⟨[], wordBatches_done batch (fuel + 1) i hi, ?_, by simp, by simp⟩
      rw [List.drop_eq_nil_of_le (by omega)]
      rfl

/-- C20: for every fragment list passed to `ingestBatch`, the word loop ends
(within `len(batch)` iterations) and the slices passed to `InsertManyWords`,
concatenated in call order, are the list itself; every slice is non-empty and
has at most 3000 fragments, every slice but the last has exactly 3000, and an
empty list causes no `InsertManyWords` call.  The word calls sit between the
page inserts and the external-links insert. -/
theorem word_subbatching (batch : List SearchFragment)
    (pageMap : List (GoString × PageData)) (links : List GoString) :
    ∃ slices, wordBatches batch batch.length 0 = some slices ∧
      ingestBatch batch pageMap links = some
        ([.insertManyDomains (pageMap.map Prod.snd), .insertManyPages (pageMap.map Prod.snd)]
          ++ slices.map StoreCall.insertManyWords ++ [.insertManyExternalLinks links]) ∧
      slices.flatten = batch ∧
      (∀ s ∈ slices, s ≠ [] ∧ s.length ≤ 3000) ∧
      (∀ s ∈ slices.dropLast, s.length = 3000) ∧
      wordBatches ([] : List SearchFragment) 0 0 = some [] := by
  obtain ⟨slices, h1, h2, h3, h4⟩ := wordBatches_spec batch batch.length 0 (by omega)
  refine ⟨slices, h1, ?_, by simpa using h2, h3, h4, rfl⟩
  unfold ingestBatch
  simp only [h1]

/-! ### C21: fragments across flushes -/

theorem switchToken_unknown (E : Env) (cfg : IngestConfig) (token raw payload : GoString)
    (page : PageData) (h : token ∉ knownTokens) :
    switchToken E cfg token raw payload page = none := by
  simp only [knownTokens, List.mem_cons, List.mem_singleton, List.not_mem_nil, or_false,
    not_or] at h
  obtain ⟨h1, h2, h3, h4, h5, h6, h7, h8, h9, h10⟩ := h
  unfold switchToken
  rw [if_neg h1, if_neg h2, if_neg h3, if_neg h4, if_neg h5, if_neg h6, if_neg h7, if_neg h8,
    if_neg h9, if_neg h10]

/-- The words, the score and the links chosen by the switch do not depend on
the page. -/
theorem switchToken_words_indep (E : Env) (cfg : IngestConfig) (token raw payload : GoString)
    (page page2 : PageData) :
    (switchToken E cfg token raw payload page).map (fun x => (x.2.1, x.2.2.1, x.2.2.2))
      = (switchToken E cfg token raw payload page2).map
          (fun x => (x.2.1, x.2.2.1, x.2.2.2)) := by
  by_cases hk : token ∈ knownTokens
  · simp only [knownTokens, List.mem_cons, List.mem_singleton, List.not_mem_nil, or_false] at hk
    rcases hk with h | h | h | h | h | h | h | h | h | h <;> subst h
    · simp only [switchToken_title, Option.map_some']
    · simp only [switchToken_h1, Option.map_some']
    · simp only [switchToken_h2, Option.map_some']
    · simp only [switchToken_h3, Option.map_some']
    · simp only [switchToken_desc, Option.map_some']
    · simp only [switchToken_ogdesc, Option.map_some']
    · simp only [switchToken_para, Option.map_some']
    · simp only [switchToken_lang, Option.map_some']
    · simp only [switchToken_keywords, Option.map_some']
    · simp only [switchToken_link, Option.map_some']
  · rw [switchToken_unknown E cfg token raw payload page hk,
      switchToken_unknown E cfg token raw payload page2 hk]

/-- A record whose `title` URL parses appends exactly its fragments, and the
run goes on. -/
theorem processRecord_fragments (E : Env) (cfg : IngestConfig) (st : IngestState) (r : Record)
    (ht : (r.token != "title".toList
      || (extractPathSegments E (toLower E r.pageurl)).isSome) = true) :
    allFragments (processRecord E cfg st r) = allFragments st ++ recordFragments E cfg r ∧
      (processRecord E cfg st r).aborted = st.aborted := by
  have hind := switchToken_words_indep E cfg r.token r.rawdata (toLower E r.rawdata)
    (currentPage st.pages r) ⟨r.pageurl, r.depth, [], [], [], []⟩
  unfold recordFragments
  cases hsw : switchToken E cfg r.token r.rawdata (toLower E r.rawdata)
      (currentPage st.pages r) with
  | none =>
    rw [hsw] at hind
    cases hsw2 : switchToken E cfg r.token r.rawdata (toLower E r.rawdata)
        ⟨r.pageurl, r.depth, [], [], [], []⟩ with
    | none =>
      unfold processRecord
      simp only [hsw, List.append_nil, and_self]
    | some res => rw [hsw2] at hind; simp at hind
  | some res =>
    rw [hsw] at hind
    cases hsw2 : switchToken E cfg r.token r.rawdata (toLower E r.rawdata)
        ⟨r.pageurl, r.depth, [], [], [], []⟩ with
    | none => rw [hsw2] at hind; simp at hind
    | some res2 =>
      rw [hsw2] at hind
      obtain ⟨page, processed, score, links⟩ := res
      obtain ⟨page2, processed2, score2, links2⟩ := res2
      simp only [Option.map_some', Option.some.injEq, Prod.mk.injEq] at hind
      obtain ⟨hp, hs, _⟩ := hind
      subst hp
      subst hs
      simp only
      by_cases htitle : r.token = "title".toList
      · rw [if_pos htitle]
        have hseg : (extractPathSegments E (toLower E r.pageurl)).isSome = true := by
          simpa [htitle] using ht
        cases hx : extractPathSegments E (toLower E r.pageurl) with
        | none => rw [hx] at hseg; exact Bool.noConfusion hseg
        | some segs =>
          unfold processRecord
          simp only [hsw, if_pos htitle, hx, allFragments_flushIfFull, Option.getD_some]
          refine ⟨?_, ?_⟩
          · simp only [allFragments, List.append_assoc]
          · unfold flushIfFull
            split <;> rfl
      · rw [if_neg htitle, processRecord_of_switch E cfg st r page processed score links hsw
          htitle, allFragments_flushIfFull]
        refine ⟨?_, ?_⟩
        · simp only [allFragments, List.append_assoc, List.append_nil]
        · unfold flushIfFull
          split <;> rfl

theorem ingestLoop_fragments (E : Env) (cfg : IngestConfig) (lines : List GoString) :
    ∀ st : IngestState, st.aborted = false → titlesParse E lines = true →
      allFragments (lines.foldl (ingestLine E cfg) st)
          = allFragments st ++ producedFragments E cfg lines ∧
        (lines.foldl (ingestLine E cfg) st).aborted = false := by
  induction lines with
  | nil =>
    intro st ha _
    simp [producedFragments, ha]
  | cons line rest ih =>
    intro st ha ht
    simp only [titlesParse, List.all_cons, Bool.and_eq_true] at ht
    obtain ⟨ht1, ht2⟩ := ht
    have hstep : allFragments (ingestLine E cfg st line)
          = allFragments st ++ (match parseLine line with
              | none => []
              | some r => recordFragments E cfg r) ∧
        (ingestLine E cfg st line).aborted = false := by
      unfold ingestLine
      rw [ha]
      cases hp : parseLine line with
      | none => simp [ha]
      | some r =>
        rw [hp] at ht1
        obtain ⟨h1, h2⟩ := processRecord_fragments E cfg st r ht1
        simp only [Bool.false_eq_true, if_false]
        exact ⟨h1, h2.trans ha⟩
    obtain ⟨r1, r2⟩ := ih (ingestLine E cfg st line) hstep.2 ht2
    rw [List.foldl_cons]
    refine ⟨?_, r2⟩
    rw [r1, hstep.1, List.append_assoc]
    simp only [producedFragments, List.flatMap_cons]

/-- C21 (counterexample): `escapeSource` passes the first-line read; with a
URL parser that rejects the invalid escape `%zz`, its `h1` record appends the
fragment `hello` to the buffer, its `title` record for the same page ends the
run in `extractPathSegments`, and `ingestBatch` is never called: the fragment
is in no flush. -/
theorem fragment_lost_on_abort :
    escapeSource.hasNewline = true ∧
    producedFragments strictEnv ⟨[], []⟩ escapeSource.lines
      = [⟨"hello".toList, "http://a/%zz".toList, 15⟩] ∧
    (ingestLoop strictEnv ⟨[], []⟩ escapeSource.lines).batch
      = [⟨"hello".toList, "http://a/%zz".toList, 15⟩] ∧
    (ingestLoop strictEnv ⟨[], []⟩ escapeSource.lines).aborted = true ∧
    Ingest strictEnv ⟨[], []⟩ escapeSource = [] := by
  decide

/-- C21 (amended): for every source file that has a newline, so that the
first-line read succeeds, and in which every `title` record has a page URL
that `url.Parse` accepts, the run reaches the final flush, and the
concatenation of the fragment lists of all flushes (the threshold flushes and
the final one), in flush order, is the sequence of fragments produced by the
records in stream order: every fragment appended to the buffer is passed to
`ingestBatch` in exactly one flush.  A threshold flush leaves all three
buffers empty for the next one. -/
theorem fragment_conservation (E : Env) (cfg : IngestConfig) (src : SourceFile)
    (hn : src.hasNewline = true)
    (ht : titlesParse E src.lines = true) :
    (ingestLoop E cfg src.lines).aborted = false ∧
    (Ingest E cfg src).flatMap (fun call => call.batch)
      = producedFragments E cfg src.lines ∧
    (Ingest E cfg src).length = (ingestLoop E cfg src.lines).flushed.length + 1 ∧
    (∀ st : IngestState, 100 < st.pages.length →
      (flushIfFull st).batch = [] ∧ (flushIfFull st).pages = [] ∧
      (flushIfFull st).externalLinks = []) := by
  obtain ⟨h1, h2⟩ := ingestLoop_fragments E cfg src.lines ingestInit rfl ht
  have ha : (ingestLoop E cfg src.lines).aborted = false := h2
  rw [Ingest_of_newline E cfg src hn]
  refine ⟨ha, ?_, ingestCalls_length E cfg src.lines ha, ?_⟩
  · have h3 : allFragments (ingestLoop E cfg src.lines)
        = producedFragments E cfg src.lines := by
      unfold ingestLoop
      rw [h1]
      simp [allFragments, ingestInit]
    rw [← h3]
    unfold ingestCalls
    simp only [ha, Bool.false_eq_true, if_false, List.flatMap_append, List.flatMap_cons,
      List.flatMap_nil, List.append_nil, allFragments]
  · intro st hst
    unfold flushIfFull
    rw [if_pos hst]
    exact ⟨rfl, rfl, rfl⟩

/-- C21 (witness): `titleSource`, a `title` record and an `h1` record for the
page `http://a/b`, each newline-terminated: the single, final flush carries
the fragments `hello`, `b`, `cat` in that order. -/
theorem fragment_conservation_witness :
    titleSource.hasNewline = true ∧
    titlesParse plainEnv titleSource.lines = true ∧
    producedFragments plainEnv ⟨[], []⟩ titleSource.lines
      = [⟨"hello".toList, "http://a/b".toList, 5⟩, ⟨"b".toList, "http://a/b".toList, 2⟩,
         ⟨"cat".toList, "http://a/b".toList, 15⟩] ∧
    (Ingest plainEnv ⟨[], []⟩ titleSource).flatMap (fun call => call.batch)
      = producedFragments plainEnv ⟨[], []⟩ titleSource.lines ∧
    (Ingest plainEnv ⟨[], []⟩ titleSource).length = 1 :=
  have h := fragment_conservation plainEnv ⟨[], []⟩ titleSource rfl (by decide)
  ⟨rfl, by decide, by decide, h.2.1, by decide⟩

end Lieu
